import Mathlib

/-!
Shallow embedding of the Go order-matching engine
(internal/models/models.go, internal/engine/orderbook.go,
internal/engine/matcher.go, internal/engine/engine.go) in Lean 4.

Decimal prices and quantities are modelled as rationals (the source uses
shopspring/decimal, an exact decimal type with total comparison; decimals
embed in the rationals).  The order book's map-from-price-string plus
sorted-price-cache representation is modelled as a list of price levels
kept sorted, which is observationally identical because the cache is
rebuilt as the sorted list of the distinct non-empty level prices after
every mutation.  The engine is modelled for a single symbol: PlaceOrder
and CancelOrder serialize per symbol, and every claim is about one
symbol's book and rows.  Store (MySQL) operations are modelled as pure
state transitions inside a transaction that either commits at the end or
is discarded; an injected StoreFail value says which statement fails, as
a transient database error would.
-/

/-- OrderSide from models.go: buy or sell. -/
inductive OrderSide
  | buy
  | sell
deriving DecidableEq, Repr

/-- OrderType from models.go: limit or market. -/
inductive OrderType
  | limit
  | market
deriving DecidableEq, Repr

/-- OrderStatus from models.go: open, partially_filled, filled, canceled.
The source's "open" status is spelled opened because open is a Lean keyword. -/
inductive OrderStatus
  | opened
  | partiallyFilled
  | filled
  | canceled
deriving DecidableEq, Repr

/-- Order from models.go.  ClientOrderID and the two timestamps are dropped:
no claim mentions them and time.Now is impure.  Price is optional exactly as
the source's *decimal.Decimal pointer. -/
structure Order where
  id : Int
  symbol : String
  side : OrderSide
  type : OrderType
  price : Option ℚ
  initialQuantity : ℚ
  remainingQuantity : ℚ
  status : OrderStatus
deriving DecidableEq, Repr

/-- Trade from models.go.  ExecutedAt is dropped (impure timestamp).  The id
field is included because the Go struct literal in executeTrade leaves ID at
its zero value 0, which claim C10 is about. -/
structure Trade where
  id : Int
  symbol : String
  buyOrderId : Int
  sellOrderId : Int
  price : ℚ
  quantity : ℚ
deriving DecidableEq, Repr

/-- PriceLevel from orderbook.go: a price and the FIFO queue of orders at it. -/
structure PriceLevel where
  price : ℚ
  orders : List Order
deriving DecidableEq, Repr

/-- OrderBook from orderbook.go for one symbol.  bids are kept sorted by
price descending and asks ascending, mirroring the bidPrices/askPrices
caches that the source rebuilds (sorted, distinct non-empty prices) after
every mutation. -/
structure OrderBook where
  bids : List PriceLevel
  asks : List PriceLevel
deriving DecidableEq, Repr

/-- PriceLevel.Remove: delete the first order with the given id, preserving
FIFO order; also returns whether an order was removed. -/
def removeFirstById : List Order → Int → List Order × Bool
  | [], _ => ([], false)
  | o :: os, oid =>
    if o.id = oid then (os, true)
    else
      let r := removeFirstById os oid
      (o :: r.1, r.2)

/-- Locate-or-create the level at price p on one side and append the order,
as OrderBook.AddOrder does through its price map; insertion keeps the side's
sorted order, which the source restores by rebuilding the price cache.
before p q says p sorts strictly in front of q on this side. -/
def insertIntoLevels (before : ℚ → ℚ → Bool) : List PriceLevel → ℚ → Order → List PriceLevel
  | [], p, o => [⟨p, [o]⟩]
  | l :: rest, p, o =>
    if l.price = p then { l with orders := l.orders ++ [o] } :: rest
    else if before p l.price then ⟨p, [o]⟩ :: l :: rest
    else l :: insertIntoLevels before rest p o

/-- OrderBook.RemoveOrder on one side: the level with the exact price is
looked up (prices are distinct, as in the source's map), the first order
with the id is removed from it, and an emptied level is deleted. -/
def removeFromLevels : List PriceLevel → Int → ℚ → List PriceLevel × Bool
  | [], _, _ => ([], false)
  | l :: rest, oid, p =>
    if l.price = p then
      let r := removeFirstById l.orders oid
      if r.2 then
        (if r.1.isEmpty then rest else { l with orders := r.1 } :: rest, true)
      else (l :: rest, false)
    else
      let r := removeFromLevels rest oid p
      (l :: r.1, r.2)

/-- OrderBook.AddOrder: a priceless order is not stored; otherwise the order
is appended to the level at its price on the side given by order.Side. -/
def OrderBook.addOrder (bk : OrderBook) (o : Order) : OrderBook :=
  match o.price with
  | none => bk
  | some p =>
    if o.side = OrderSide.buy then
      { bk with bids := insertIntoLevels (fun a b => decide (b < a)) bk.bids p o }
    else
      { bk with asks := insertIntoLevels (fun a b => decide (a < b)) bk.asks p o }

/-- OrderBook.RemoveOrder: nil price removes nothing; otherwise remove by id
at the given price on the given side, deleting the level if it empties. -/
def OrderBook.removeOrder (bk : OrderBook) (oid : Int) (side : OrderSide)
    (price : Option ℚ) : OrderBook × Bool :=
  match price with
  | none => (bk, false)
  | some p =>
    if side = OrderSide.buy then
      let r := removeFromLevels bk.bids oid p
      ({ bk with bids := r.1 }, r.2)
    else
      let r := removeFromLevels bk.asks oid p
      ({ bk with asks := r.1 }, r.2)

/-- The first (oldest) order at the best price of a side: the source reads
the side's first cached price and that level's first order. -/
def bestOfLevels (ls : List PriceLevel) : Option Order :=
  match ls with
  | [] => none
  | l :: _ => l.orders.head?

/-- OrderBook.GetBestBid: oldest order at the highest bid price, or none. -/
def OrderBook.getBestBid (bk : OrderBook) : Option Order := bestOfLevels bk.bids

/-- OrderBook.GetBestAsk: oldest order at the lowest ask price, or none. -/
def OrderBook.getBestAsk (bk : OrderBook) : Option Order := bestOfLevels bk.asks

/-- PriceLevel.GetTotalQuantity: fold Add over the remaining quantities. -/
def levelTotalQuantity (l : PriceLevel) : ℚ :=
  l.orders.foldl (fun t o => t + o.remainingQuantity) 0

/-- One side of OrderBook.GetTopLevels: up to depth cached prices, skipping
empty levels, returned as levels carrying only the price (Orders nil). -/
def topOfSide (ls : List PriceLevel) (depth : Nat) : List PriceLevel :=
  ((ls.take depth).filter (fun l => !l.orders.isEmpty)).map
    (fun l => { price := l.price, orders := [] })

/-- OrderBook.GetTopLevels: up to depth aggregated price levels per side. -/
def OrderBook.getTopLevels (bk : OrderBook) (depth : Nat) :
    List PriceLevel × List PriceLevel :=
  (topOfSide bk.bids depth, topOfSide bk.asks depth)

/-- OrderBookLevel from models.go: one aggregated book level. -/
structure OrderBookLevel where
  price : ℚ
  quantity : ℚ
deriving DecidableEq, Repr

/-- The source's map lookup ob.Bids[price.String()] / ob.Asks[...]. -/
def findLevel (ls : List PriceLevel) (p : ℚ) : Option PriceLevel :=
  ls.find? (fun l => l.price = p)

/-- Engine.GetOrderBookWithQuantities for one symbol's book: the top levels,
each paired with the total remaining quantity of the level at that price
(zero if the level is missing from the map). -/
def getOrderBookWithQuantities (bk : OrderBook) (depth : Nat) :
    List OrderBookLevel × List OrderBookLevel :=
  let t := bk.getTopLevels depth
  (t.1.map (fun lvl =>
      { price := lvl.price,
        quantity :=
          match findLevel bk.bids lvl.price with
          | some pl => levelTotalQuantity pl
          | none => 0 }),
   t.2.map (fun lvl =>
      { price := lvl.price,
        quantity :=
          match findLevel bk.asks lvl.price with
          | some pl => levelTotalQuantity pl
          | none => 0 }))

/-- MatchResult from matcher.go. -/
structure MatchResult where
  trades : List Trade
  updatedOrders : List Order
  incomingOrderLeft : Option Order
deriving DecidableEq, Repr

/-- Matcher.canMatch: a market order matches any resting order; a limit
order requires both prices present and incoming ≥ resting for a buy,
incoming ≤ resting for a sell (non-strict). -/
def canMatch (inc rest : Order) : Bool :=
  if inc.type = OrderType.market then true
  else
    match inc.price, rest.price with
    | some ip, some rp =>
      if inc.side = OrderSide.buy then decide (rp ≤ ip) else decide (ip ≤ rp)
    | _, _ => false

/-- Matcher.executeTrade: quantity is the smaller of the two remaining
quantities; the price is the resting order's when the incoming order is
market or the resting order is limit, else (defensively) the incoming
order's.  The source dereferences the price pointers; resting book orders
always carry a price, so the 0 default of getD is never used in reachable
states.  The Go struct literal leaves Trade.ID at its zero value 0. -/
def executeTrade (inc rest : Order) : Trade :=
  let q := if rest.remainingQuantity < inc.remainingQuantity then rest.remainingQuantity
           else inc.remainingQuantity
  let p := if inc.type = OrderType.market then rest.price.getD 0
           else if rest.type = OrderType.limit then rest.price.getD 0
           else inc.price.getD 0
  { id := 0
    symbol := inc.symbol
    buyOrderId := if inc.side = OrderSide.buy then inc.id else rest.id
    sellOrderId := if inc.side = OrderSide.buy then rest.id else inc.id
    price := p
    quantity := q }

/-- The best opposing resting order for an incoming order of side s. -/
def bestOpp (bk : OrderBook) (s : OrderSide) : Option Order :=
  if s = OrderSide.buy then bk.getBestAsk else bk.getBestBid

/-- Intermediate state of the matching loop. -/
structure LoopOut where
  working : Order
  book : OrderBook
  trades : List Trade
  updated : List Order
deriving DecidableEq, Repr

/-- The source's in-place mutation of the order returned by GetBestBid or
GetBestAsk, which is the first order of the side's first level. -/
def setHeadOrder : List PriceLevel → Order → List PriceLevel
  | [], _ => []
  | l :: rest, o =>
    match l.orders with
    | [] => l :: rest
    | _ :: os => { l with orders := o :: os } :: rest

/-- Matcher.matchBuyOrder and Matcher.matchSellOrder, which are identical up
to which side of the book they consume.  While the working order has
remaining quantity and the best opposing order crosses, a trade executes:
both remaining quantities shrink by the trade quantity; a fully consumed
resting order is marked Filled and removed from the book, otherwise it is
marked PartiallyFilled in place; either way it is appended to the updated
list.  The loop terminates because every iteration that continues removes a
resting order, so fuel bounding the iteration count makes it structural. -/
def matchLoop : Nat → Order → OrderBook → LoopOut
  | 0, inc, bk => ⟨inc, bk, [], []⟩
  | fuel + 1, inc, bk =>
    if inc.remainingQuantity = 0 then ⟨inc, bk, [], []⟩
    else
      match bestOpp bk inc.side with
      | none => ⟨inc, bk, [], []⟩
      | some best =>
        if canMatch inc best then
          let t := executeTrade inc best
          let inc2 := { inc with remainingQuantity := inc.remainingQuantity - t.quantity }
          let bestRem := best.remainingQuantity - t.quantity
          let best2 := { best with
            remainingQuantity := bestRem
            status := if bestRem = 0 then OrderStatus.filled else OrderStatus.partiallyFilled }
          let bk2 :=
            if bestRem = 0 then (bk.removeOrder best.id best.side best.price).1
            else if inc.side = OrderSide.buy then { bk with asks := setHeadOrder bk.asks best2 }
            else { bk with bids := setHeadOrder bk.bids best2 }
          let r := matchLoop fuel inc2 bk2
          ⟨r.working, r.book, t :: r.trades, best2 :: r.updated⟩
        else ⟨inc, bk, [], []⟩

/-- Total number of orders on a side. -/
def countOrders (ls : List PriceLevel) : Nat :=
  (ls.map (fun l => l.orders.length)).sum

/-- The levels of the side an incoming order of side s consumes. -/
def oppLevels (bk : OrderBook) (s : OrderSide) : List PriceLevel :=
  if s = OrderSide.buy then bk.asks else bk.bids

/-- Matcher.Match: run the matching loop on a copy of the incoming order,
then finalize it: with remaining quantity left, a limit order becomes the
leftover (PartiallyFilled if anything filled, its status otherwise) and a
market order is Canceled with remaining zeroed and appended to the updated
orders; with nothing remaining it is Filled and appended.  The fuel given
to the loop exceeds the number of opposing resting orders, which bounds
the source loop's iterations. -/
def Matcher.Match (inc : Order) (bk : OrderBook) : MatchResult × OrderBook :=
  let r := matchLoop (countOrders (oppLevels bk inc.side) + 1) inc bk
  let w := r.working
  if w.remainingQuantity ≠ 0 then
    if w.type = OrderType.limit then
      let w2 := if w.remainingQuantity < w.initialQuantity
                then { w with status := OrderStatus.partiallyFilled } else w
      ({ trades := r.trades, updatedOrders := r.updated, incomingOrderLeft := some w2 }, r.book)
    else
      let w2 := { w with status := OrderStatus.canceled, remainingQuantity := 0 }
      ({ trades := r.trades, updatedOrders := r.updated ++ [w2], incomingOrderLeft := none }, r.book)
  else
    let w2 := { w with status := OrderStatus.filled }
    ({ trades := r.trades, updatedOrders := r.updated ++ [w2], incomingOrderLeft := none }, r.book)

/-- The persistent store's visible rows for one symbol (orders and trades
tables) plus the auto-increment counters. -/
structure StoreState where
  orders : List Order
  trades : List Trade
  nextOrderId : Int
  nextTradeId : Int
deriving DecidableEq, Repr

/-- INSERT INTO orders: the store assigns the next id. -/
def StoreState.insertOrder (st : StoreState) (o : Order) : StoreState × Int :=
  let oid := st.nextOrderId
  ({ st with orders := st.orders ++ [{ o with id := oid }], nextOrderId := oid + 1 }, oid)

/-- INSERT INTO trades: the store assigns the next trade id to the row;
the Trade value held by the engine is not updated. -/
def StoreState.insertTrade (st : StoreState) (t : Trade) : StoreState :=
  { st with trades := st.trades ++ [{ t with id := st.nextTradeId }],
            nextTradeId := st.nextTradeId + 1 }

/-- UPDATE orders SET remaining_quantity, status WHERE id. -/
def StoreState.updateOrder (st : StoreState) (oid : Int) (rem : ℚ)
    (status : OrderStatus) : StoreState :=
  { st with orders := st.orders.map (fun o =>
      if o.id = oid then { o with remainingQuantity := rem, status := status } else o) }

/-- SELECT ... FROM orders WHERE id. -/
def StoreState.getOrder (st : StoreState) (oid : Int) : Option Order :=
  st.orders.find? (fun o => o.id = oid)

/-- Which store statement of a PlaceOrder transaction fails, modelling a
transient database error: none, the order insert, the k-th trade insert,
the k-th order update, or the commit. -/
inductive StoreFail
  | ok
  | onInsertOrder
  | onInsertTrade (k : Nat)
  | onUpdateOrder (k : Nat)
  | onCommit
deriving DecidableEq, Repr

/-- Errors surfaced by the engine. -/
inductive EngineError
  | insertOrderFailed
  | insertTradeFailed
  | updateOrderFailed
  | commitFailed
  | orderNotFound
  | alreadyFilled
  | alreadyCanceled
  | noRemainingQuantity
  | cannotCancel
deriving DecidableEq, Repr

/-- CreateOrderRequest from models.go (client order id dropped). -/
structure CreateOrderRequest where
  symbol : String
  side : OrderSide
  type : OrderType
  price : Option ℚ
  quantity : ℚ
deriving DecidableEq, Repr

/-- The engine's state for one symbol: the store and the in-memory book. -/
structure EngineState where
  store : StoreState
  book : OrderBook
deriving DecidableEq, Repr

/-- Persist the matched trades one by one inside the transaction; none on
the injected failure at index k. -/
def persistTrades (fs : StoreFail) : StoreState → List Trade → Nat → Option StoreState
  | st, [], _ => some st
  | st, t :: ts, k =>
    if fs = StoreFail.onInsertTrade k then none
    else persistTrades fs (st.insertTrade t) ts (k + 1)

/-- Persist the updated orders one by one inside the transaction; none on
the injected failure at index k. -/
def persistUpdates (fs : StoreFail) : StoreState → List Order → Nat → Option StoreState
  | st, [], _ => some st
  | st, u :: us, k =>
    if fs = StoreFail.onUpdateOrder k then none
    else persistUpdates fs (st.updateOrder u.id u.remainingQuantity u.status) us (k + 1)

/-- Engine.PlaceOrder for one symbol.  Inside a store transaction: insert
the incoming order (status Open, remaining = initial = quantity) and get
its id; run the in-memory matching, which mutates the book; persist the
trades, then the updated orders; if a leftover limit order remains, add it
to the book and return it, else return the updated-orders entry with the
incoming id; commit.  On any store error the transaction is rolled back
(the returned store is the original) and the error is propagated; the book
keeps whatever in-memory mutation had already happened, as in the source. -/
def placeOrder (fs : StoreFail) (es : EngineState) (req : CreateOrderRequest) :
    EngineState × Except EngineError (Order × List Trade) :=
  let order : Order :=
    { id := 0, symbol := req.symbol, side := req.side, type := req.type,
      price := req.price, initialQuantity := req.quantity,
      remainingQuantity := req.quantity, status := OrderStatus.opened }
  if fs = StoreFail.onInsertOrder then (es, Except.error EngineError.insertOrderFailed)
  else
    let ins := es.store.insertOrder order
    let order2 := { order with id := ins.2 }
    let mr := Matcher.Match order2 es.book
    match persistTrades fs ins.1 mr.1.trades 0 with
    | none => ({ es with book := mr.2 }, Except.error EngineError.insertTradeFailed)
    | some pending =>
      match persistUpdates fs pending mr.1.updatedOrders 0 with
      | none => ({ es with book := mr.2 }, Except.error EngineError.updateOrderFailed)
      | some pending2 =>
        let final :=
          match mr.1.incomingOrderLeft with
          | some lo => (mr.2.addOrder lo, lo)
          | none => (mr.2, ((mr.1.updatedOrders.find? (fun u : Order => u.id = order2.id)).getD order2))
        if fs = StoreFail.onCommit then
          ({ store := es.store, book := final.1 }, Except.error EngineError.commitFailed)
        else
          ({ store := pending2, book := final.1 }, Except.ok (final.2, mr.1.trades))

/-- Engine.CancelOrder for one symbol.  Read the order; reject Filled,
Canceled and zero-remaining targets; inside the transaction re-read and
re-check (in this sequential model the re-read sees the same row); set
remaining to zero and status to Canceled in the store; remove the order
from the book when it has a price; commit and return the canceled order. -/
def cancelOrder (es : EngineState) (oid : Int) : EngineState × Except EngineError Order :=
  match es.store.getOrder oid with
  | none => (es, Except.error EngineError.orderNotFound)
  | some order =>
    if order.status = OrderStatus.filled then (es, Except.error EngineError.alreadyFilled)
    else if order.status = OrderStatus.canceled then (es, Except.error EngineError.alreadyCanceled)
    else if order.remainingQuantity = 0 then (es, Except.error EngineError.noRemainingQuantity)
    else
      match es.store.getOrder oid with
      | none => (es, Except.error EngineError.orderNotFound)
      | some cur =>
        if cur.status = OrderStatus.filled ∨ cur.status = OrderStatus.canceled then
          (es, Except.error EngineError.cannotCancel)
        else if cur.remainingQuantity = 0 then
          (es, Except.error EngineError.noRemainingQuantity)
        else
          let store2 := es.store.updateOrder oid 0 OrderStatus.canceled
          let book2 :=
            match order.price with
            | some _ => (es.book.removeOrder oid order.side order.price).1
            | none => es.book
          ({ store := store2, book := book2 },
           Except.ok { order with remainingQuantity := 0, status := OrderStatus.canceled })

/-- One engine operation: PlaceOrder with an injected store behavior, or
CancelOrder. -/
inductive EngineOp
  | placeOp (fs : StoreFail) (req : CreateOrderRequest)
  | cancelOp (oid : Int)
deriving DecidableEq, Repr

/-- The state transition of one engine operation. -/
def engineStep (es : EngineState) (op : EngineOp) : EngineState :=
  match op with
  | EngineOp.placeOp fs req => (placeOrder fs es req).1
  | EngineOp.cancelOp oid => (cancelOrder es oid).1

/-- The engine's start state: empty store, empty book. -/
def initialEngineState : EngineState :=
  { store := { orders := [], trades := [], nextOrderId := 1, nextTradeId := 1 },
    book := { bids := [], asks := [] } }

/-- Run a sequence of engine operations from the start state. -/
def runEngine (ops : List EngineOp) : EngineState :=
  ops.foldl engineStep initialEngineState

/-- All orders resting on one side, best level first, FIFO within a level. -/
def ordersOfLevels (ls : List PriceLevel) : List Order :=
  (ls.map PriceLevel.orders).flatten

/-- Structural well-formedness of one side of the book, as AddOrder and the
engine maintain it: levels are non-empty, and every resting order carries
the level's price, sits on its own side, and is a limit order (the engine
adds only limit leftovers and recovered limit orders to the book). -/
def sideWF (s : OrderSide) (ls : List PriceLevel) : Prop :=
  ∀ l ∈ ls, l.orders ≠ [] ∧
    ∀ o ∈ l.orders, o.price = some l.price ∧ o.side = s ∧ o.type = OrderType.limit

/-- The side's levels are sorted by price under the strict relation lt
(bids descending, asks ascending); strictness makes the prices distinct,
matching the source's price-keyed map. -/
def sideSorted (lt : ℚ → ℚ → Prop) (ls : List PriceLevel) : Prop :=
  (ls.map PriceLevel.price).Pairwise lt

/-- Well-formedness of the whole book. -/
def OrderBook.WF (bk : OrderBook) : Prop :=
  sideSorted (fun a b => b < a) bk.bids ∧ sideSorted (fun a b => a < b) bk.asks ∧
    sideWF OrderSide.buy bk.bids ∧ sideWF OrderSide.sell bk.asks

/-- The price of a side's best level, if any. -/
def headPrice (ls : List PriceLevel) : Option ℚ :=
  (ls.map PriceLevel.price).head?

/-- The book is not crossed: the best bid price is strictly below the best
ask price whenever both sides are populated. -/
def OrderBook.notCrossed (bk : OrderBook) : Prop :=
  ∀ pb pa, headPrice bk.bids = some pb → headPrice bk.asks = some pa → pb < pa

/-- The specification's crossing test, written from the spec's words: a
market incoming order crosses any resting order; a limit order requires
both prices present and incoming ≥ resting for a buy (≤ for a sell),
non-strict. -/
def specCross (inc rest : Order) : Prop :=
  inc.type = OrderType.market ∨
    ∃ ip rp, inc.price = some ip ∧ rest.price = some rp ∧
      (if inc.side = OrderSide.buy then rp ≤ ip else ip ≤ rp)

/-- The resting (maker) side's order id recorded in a trade produced for an
incoming order of side s. -/
def restingIdOf (s : OrderSide) (t : Trade) : Int :=
  if s = OrderSide.buy then t.sellOrderId else t.buyOrderId

/-- Total quantity of a list of trades. -/
def sumQty (ts : List Trade) : ℚ :=
  (ts.map Trade.quantity).sum

/-- Shorthand for building a fresh order in concrete scenarios. -/
def mkOrder (oid : Int) (s : OrderSide) (t : OrderType) (p : Option ℚ) (q : ℚ) : Order :=
  { id := oid, symbol := "BTCUSD", side := s, type := t, price := p,
    initialQuantity := q, remainingQuantity := q, status := OrderStatus.opened }

/-- The empty book. -/
def emptyBook : OrderBook := { bids := [], asks := [] }

/-- A market buy order that carries a price: the inputs AddOrder's own
documentation says must not be stored. -/
def marketOrderWithPrice : Order :=
  mkOrder 7 OrderSide.buy OrderType.market (some 100) 1

/-- A book with one bid level at 100 holding remaining quantities 2 and 3. -/
def depthBook : OrderBook :=
  { bids := [{ price := 100,
               orders := [mkOrder 1 OrderSide.buy OrderType.limit (some 100) 2,
                          mkOrder 2 OrderSide.buy OrderType.limit (some 100) 3] }],
    asks := [] }

/-- A resting sell order used by the concrete PlaceOrder scenarios. -/
def restingSell : Order := mkOrder 1 OrderSide.sell OrderType.limit (some 100) 1

/-- Engine state holding restingSell in the store and in the book. -/
def oneAskState : EngineState :=
  { store := { orders := [restingSell], trades := [], nextOrderId := 2, nextTradeId := 1 },
    book := { bids := [], asks := [{ price := 100, orders := [restingSell] }] } }

/-- A buy limit request at 100 for quantity 1, crossing restingSell. -/
def crossingBuyReq : CreateOrderRequest :=
  { symbol := "BTCUSD", side := OrderSide.buy, type := OrderType.limit,
    price := some 100, quantity := 1 }

/-- All orders resting anywhere in the book. -/
def OrderBook.allOrders (bk : OrderBook) : List Order :=
  ordersOfLevels bk.bids ++ ordersOfLevels bk.asks

/-- A filled order with nothing remaining, a non-cancelable target. -/
def filledOrder : Order :=
  { id := 1, symbol := "BTCUSD", side := OrderSide.sell, type := OrderType.limit,
    price := some 100, initialQuantity := 1, remainingQuantity := 0,
    status := OrderStatus.filled }

/-- Engine state whose store holds only filledOrder. -/
def filledOrderState : EngineState :=
  { store := { orders := [filledOrder], trades := [], nextOrderId := 2, nextTradeId := 1 },
    book := emptyBook }

/-- The incoming crossing buy of the concrete matcher scenarios. -/
def crossingBuyOrder : Order := mkOrder 2 OrderSide.buy OrderType.limit (some 100) 1

/-- The trade the concrete matcher scenario produces. -/
def scenarioTrade : Trade :=
  { id := 0, symbol := "BTCUSD", buyOrderId := 2, sellOrderId := 1,
    price := 100, quantity := 1 }

/-- A buy limit request at 90 for quantity 1. -/
def bidReq90 : CreateOrderRequest :=
  { symbol := "BTCUSD", side := OrderSide.buy, type := OrderType.limit,
    price := some 90, quantity := 1 }

/-- A sell limit request at 100 for quantity 1. -/
def askReq100 : CreateOrderRequest :=
  { symbol := "BTCUSD", side := OrderSide.sell, type := OrderType.limit,
    price := some 100, quantity := 1 }

/-- A concrete run: place a bid at 90, then an ask at 100. -/
def c5ops : List EngineOp :=
  [EngineOp.placeOp StoreFail.ok bidReq90, EngineOp.placeOp StoreFail.ok askReq100]

-- Decidable equality for store results, for concrete-scenario proofs.
deriving instance DecidableEq for Except

/-- C8 (failing input): AddOrder stores a market order that carries a price.
On the empty book it creates a bid level at 100 holding the order, while the
claim (and AddOrder's own documentation) says the book must stay unchanged
for every market order. -/
theorem c8_market_order_with_price_is_stored :
    OrderBook.addOrder emptyBook marketOrderWithPrice =
      { bids := [{ price := 100, orders := [marketOrderWithPrice] }], asks := [] } ∧
    OrderBook.addOrder emptyBook marketOrderWithPrice ≠ emptyBook := by
  constructor
  · rfl
  · decide

/-- C9 (counterexample): the engine book query with depth 101 returns the
aggregated levels instead of rejecting the depth: there is no validation of
the depth bound anywhere in the engine, and the function has no error
outcome at all. -/
theorem c9_counterexample :
    getOrderBookWithQuantities depthBook 101 = ([{ price := 100, quantity := 5 }], []) := by
  norm_num [getOrderBookWithQuantities, OrderBook.getTopLevels, topOfSide, depthBook,
    findLevel, levelTotalQuantity, mkOrder]

/-- C1 (counterexample): with one resting sell and an incoming crossing buy,
an injected failure of the first trade insert makes PlaceOrder roll the
store back and propagate the error, but the in-memory book has already been
mutated by the matching step (the resting sell is gone), contradicting the
claim that the book is unmutated at every pre-commit failure. -/
theorem c1_counterexample :
    (placeOrder (StoreFail.onInsertTrade 0) oneAskState crossingBuyReq).2 =
      Except.error EngineError.insertTradeFailed ∧
    (placeOrder (StoreFail.onInsertTrade 0) oneAskState crossingBuyReq).1.store =
      oneAskState.store ∧
    (placeOrder (StoreFail.onInsertTrade 0) oneAskState crossingBuyReq).1.book ≠
      oneAskState.book := by
  refine ⟨?_, ?_, ?_⟩ <;>
      norm_num [placeOrder, oneAskState, crossingBuyReq, restingSell, mkOrder, Matcher.Match,
        matchLoop, oppLevels, countOrders, bestOpp, OrderBook.getBestAsk, OrderBook.getBestBid,
        bestOfLevels, canMatch, executeTrade, OrderBook.removeOrder, removeFromLevels,
        removeFirstById, StoreState.insertOrder, persistTrades] <;>
    first
      | rfl
      | decide

/-- C1 (amended): on any store failure before commit PlaceOrder propagates
the error and the transaction is rolled back (the store is unchanged), and
when the failing operation is the insert of the incoming order the
in-memory book is also still unmutated; a failure of a later trade insert
or order update leaves the book already mutated by matching. -/
theorem c1_amended (fs : StoreFail) (es : EngineState) (req : CreateOrderRequest) :
    (fs = StoreFail.onInsertOrder →
      placeOrder fs es req = (es, Except.error EngineError.insertOrderFailed)) ∧
    (∀ e, (placeOrder fs es req).2 = Except.error e →
      (placeOrder fs es req).1.store = es.store) := by
  constructor
  · intro h
    subst h
    simp [placeOrder]
  · intro e
    unfold placeOrder
    by_cases hfs : fs = StoreFail.onInsertOrder
    · simp [hfs]
    · simp only [if_neg hfs]
      split
      · intro _
        rfl
      · split
        · intro _
          rfl
        · split
          · intro _
            rfl
          · intro h
            exact absurd h (by simp)

/-- Applying the amended C1 statement at a concrete input: an insert-order
failure leaves the whole engine state unchanged and surfaces the error. -/
theorem c1_amended_witness :
    placeOrder StoreFail.onInsertOrder oneAskState crossingBuyReq =
      (oneAskState, Except.error EngineError.insertOrderFailed) :=
  (c1_amended StoreFail.onInsertOrder oneAskState crossingBuyReq).1 rfl

/-- In a strictly sorted side the level lookup by its own price finds the
level itself (prices are distinct keys, as in the source's map). -/
theorem findLevel_self {lt : ℚ → ℚ → Prop} (hne : ∀ a b : ℚ, lt a b → a ≠ b) :
    ∀ ls : List PriceLevel, sideSorted lt ls → ∀ l ∈ ls, findLevel ls l.price = some l := by
  intro ls
  induction ls with
  | nil =>
    intro _ l hl
    cases hl
  | cons x rest ih =>
    intro hs l hl
    have hs2 := List.pairwise_map.mp hs
    rcases List.mem_cons.mp hl with h | h
    · subst h
      unfold findLevel
      exact List.find?_cons_of_pos rest (by simp)
    · have hxl : lt x.price l.price := (List.pairwise_cons.mp hs2).1 l h
      have hne2 : ¬ (x.price = l.price) := hne x.price l.price hxl
      unfold findLevel
      rw [List.find?_cons_of_neg rest (by simp [hne2])]
      exact ih (List.pairwise_map.mpr (List.pairwise_cons.mp hs2).2) l h

/-- On a well-formed side no level is empty, so GetTopLevels keeps exactly
the first depth levels, stripped to their prices. -/
theorem topOfSide_eq (s : OrderSide) (ls : List PriceLevel) (depth : Nat)
    (h : sideWF s ls) :
    topOfSide ls depth = (ls.take depth).map (fun l => { price := l.price, orders := [] }) := by
  unfold topOfSide
  have : (ls.take depth).filter (fun l => !l.orders.isEmpty) = ls.take depth := by
    apply List.filter_eq_self.mpr
    intro l hl
    have hmem : l ∈ ls := List.take_subset depth ls hl
    have := (h l hmem).1
    simp [List.isEmpty_iff, this]
  rw [this]

/-- C9 (amended): the engine's book query performs no depth validation: for
every depth, including any depth greater than 100, it returns the first
depth levels of each side of a well-formed book, each aggregated to the
total remaining quantity at its price, and it has no error outcome. -/
theorem c9_amended (bk : OrderBook) (depth : Nat) (hWF : bk.WF) :
    getOrderBookWithQuantities bk depth =
      ((bk.bids.take depth).map (fun l => { price := l.price, quantity := levelTotalQuantity l }),
       (bk.asks.take depth).map (fun l => { price := l.price, quantity := levelTotalQuantity l })) := by
  obtain ⟨hsb, hsa, hwb, hwa⟩ := hWF
  unfold getOrderBookWithQuantities OrderBook.getTopLevels
  rw [topOfSide_eq OrderSide.buy bk.bids depth hwb, topOfSide_eq OrderSide.sell bk.asks depth hwa]
  simp only [List.map_map]
  apply Prod.ext
  · apply List.map_congr_left
    intro l hl
    have hf : findLevel bk.bids l.price = some l :=
      findLevel_self (fun a b h2 => (ne_of_gt h2)) bk.bids hsb l (List.take_subset depth bk.bids hl)
    simp [Function.comp, hf]
  · apply List.map_congr_left
    intro l hl
    have hf : findLevel bk.asks l.price = some l :=
      findLevel_self (fun a b h2 => (ne_of_lt h2)) bk.asks hsa l (List.take_subset depth bk.asks hl)
    simp [Function.comp, hf]

/-- Applying the amended C9 statement at a concrete input with depth 101:
the query returns the aggregated level, not an error. -/
theorem c9_amended_witness :
    getOrderBookWithQuantities depthBook 101 =
      ((depthBook.bids.take 101).map (fun l => { price := l.price, quantity := levelTotalQuantity l }),
       (depthBook.asks.take 101).map (fun l => { price := l.price, quantity := levelTotalQuantity l })) :=
  c9_amended depthBook 101
    (by refine ⟨?_, ?_, ?_, ?_⟩ <;> norm_num [sideSorted, sideWF, depthBook, mkOrder] <;> decide)

/-- Every trade built by the matching loop carries the Go zero value 0 in
its id field: executeTrade never sets an id. -/
theorem matchLoop_trade_id_zero (fuel : Nat) :
    ∀ (inc : Order) (bk : OrderBook) (t : Trade), t ∈ (matchLoop fuel inc bk).trades → t.id = 0 := by
  induction fuel with
  | zero =>
    intro inc bk t ht
    simp [matchLoop] at ht
  | succ n ih =>
    intro inc bk t ht
    unfold matchLoop at ht
    split at ht
    · simp at ht
    · split at ht
      · simp at ht
      · split at ht
        · simp only [List.mem_cons] at ht
          rcases ht with h | h
          · subst h
            rfl
          · exact ih _ _ t h
        · simp at ht
/-- Match returns exactly the loop's trades: finalization never adds one. -/
theorem Match_trades (inc : Order) (bk : OrderBook) :
    (Matcher.Match inc bk).1.trades =
      (matchLoop (countOrders (oppLevels bk inc.side) + 1) inc bk).trades := by
  simp only [Matcher.Match]
  split
  · split
    · rfl
    · rfl
  · rfl

/-- C10: every trade returned by a successful PlaceOrder carries id 0: the
store-assigned trade ids produced when the rows are inserted are never read
back into the returned Trade values. -/
theorem c10_returned_trade_ids_are_zero (fs : StoreFail) (es : EngineState)
    (req : CreateOrderRequest) (ord : Order) (ts : List Trade)
    (h : (placeOrder fs es req).2 = Except.ok (ord, ts)) :
    ∀ t ∈ ts, t.id = 0 := by
  unfold placeOrder at h
  dsimp only at h
  repeat' split at h
  all_goals simp at h
  all_goals
    (obtain ⟨h4, h5⟩ := h
     subst h5
     intro t ht
     rw [Match_trades] at ht
     exact matchLoop_trade_id_zero _ _ _ t ht)

/-- Applying C10 at a concrete input: the one trade of a successful
concrete PlaceOrder has id 0. -/
theorem c10_witness :
    ({ id := 0, symbol := "BTCUSD", buyOrderId := 2, sellOrderId := 1,
        price := 100, quantity := 1 } : Trade).id = 0 :=
  c10_returned_trade_ids_are_zero StoreFail.ok oneAskState crossingBuyReq
    { id := 2, symbol := "BTCUSD", side := OrderSide.buy, type := OrderType.limit,
      price := some 100, initialQuantity := 1, remainingQuantity := 0,
      status := OrderStatus.filled } _
    (by norm_num [placeOrder, oneAskState, crossingBuyReq, restingSell, mkOrder, Matcher.Match,
          matchLoop, oppLevels, countOrders, bestOpp, OrderBook.getBestAsk, OrderBook.getBestBid,
          bestOfLevels, canMatch, executeTrade, OrderBook.removeOrder, removeFromLevels,
          removeFirstById, StoreState.insertOrder, persistTrades, persistUpdates,
          StoreState.insertTrade, StoreState.updateOrder]
        decide)
    { id := 0, symbol := "BTCUSD", buyOrderId := 2, sellOrderId := 1,
      price := 100, quantity := 1 } (List.mem_singleton.mpr rfl)

/-- Reading an order back after UPDATE: the row with the id now carries the
new remaining quantity and status; other rows are untouched. -/
theorem getOrder_updateOrder (st : StoreState) (oid : Int) (rem : ℚ) (stat : OrderStatus) :
    StoreState.getOrder (st.updateOrder oid rem stat) oid =
      (StoreState.getOrder st oid).map
        (fun o => { o with remainingQuantity := rem, status := stat }) := by
  unfold StoreState.getOrder StoreState.updateOrder
  dsimp only
  induction st.orders with
  | nil => rfl
  | cons o os ih =>
    by_cases ho : o.id = oid
    · simp [List.find?, ho]
    · simp only [List.map_cons]
      rw [List.find?_cons_of_neg _ (by simp [ho]), List.find?_cons_of_neg _ (by simp [ho])]
      exact ih

/-- C6: CancelOrder succeeds only on an order whose status is Open or
PartiallyFilled and whose remaining quantity is positive (positivity uses
the request-validation invariant that stored remaining quantities are
non-negative); an order that is Filled, Canceled or has zero remaining
yields an error with the engine state unchanged; and after a successful
cancel a second CancelOrder on the same id fails with the conflict error
for an already canceled order, again leaving the state unchanged. -/
theorem c6_cancel_contract (es : EngineState) (oid : Int)
    (hValid : ∀ o ∈ es.store.orders, 0 ≤ o.remainingQuantity) :
    (∀ es2 o2, cancelOrder es oid = (es2, Except.ok o2) →
       ∃ orig, es.store.getOrder oid = some orig ∧
         (orig.status = OrderStatus.opened ∨ orig.status = OrderStatus.partiallyFilled) ∧
         0 < orig.remainingQuantity) ∧
    (∀ orig, es.store.getOrder oid = some orig →
       orig.status = OrderStatus.filled ∨ orig.status = OrderStatus.canceled ∨
         orig.remainingQuantity = 0 →
       ∃ e, cancelOrder es oid = (es, Except.error e)) ∧
    (∀ es2 o2, cancelOrder es oid = (es2, Except.ok o2) →
       cancelOrder es2 oid = (es2, Except.error EngineError.alreadyCanceled)) := by
  refine ⟨?_, ?_, ?_⟩
  · intro es2 o2 h
    unfold cancelOrder at h
    cases hget : es.store.getOrder oid with
    | none =>
      rw [hget] at h
      simp at h
    | some orig =>
      rw [hget] at h
      refine ⟨orig, rfl, ?_⟩
      by_cases h1 : orig.status = OrderStatus.filled
      · simp [h1] at h
      · by_cases h2 : orig.status = OrderStatus.canceled
        · simp [h1, h2] at h
        · by_cases h3 : orig.remainingQuantity = 0
          · simp [h1, h2, h3] at h
          · constructor
            · cases hs : orig.status
              · left
                rfl
              · right
                rfl
              · exact absurd hs h1
              · exact absurd hs h2
            · have hmem : orig ∈ es.store.orders := List.mem_of_find?_eq_some hget
              exact lt_of_le_of_ne (hValid orig hmem) (fun hz => h3 hz.symm)
  · intro orig hget hbad
    unfold cancelOrder
    rw [hget]
    by_cases h1 : orig.status = OrderStatus.filled
    · exact ⟨EngineError.alreadyFilled, by simp [h1]⟩
    · by_cases h2 : orig.status = OrderStatus.canceled
      · exact ⟨EngineError.alreadyCanceled, by simp [h1, h2]⟩
      · have h3 : orig.remainingQuantity = 0 := by
          rcases hbad with hb | hb | hb
          · exact absurd hb h1
          · exact absurd hb h2
          · exact hb
        exact ⟨EngineError.noRemainingQuantity, by simp [h1, h2, h3]⟩
  · intro es2 o2 h
    unfold cancelOrder at h
    cases hget : es.store.getOrder oid with
    | none =>
      rw [hget] at h
      simp at h
    | some orig =>
      rw [hget] at h
      by_cases h1 : orig.status = OrderStatus.filled
      · simp [h1] at h
      · by_cases h2 : orig.status = OrderStatus.canceled
        · simp [h1, h2] at h
        · by_cases h3 : orig.remainingQuantity = 0
          · simp [h1, h2, h3] at h
          · simp only [h1, h2, h3, if_neg, ite_false] at h
            have hes2 : es2.store = es.store.updateOrder oid 0 OrderStatus.canceled := by
              rcases hp : orig.price with _ | p
              · rw [hp] at h
                simp at h
                obtain ⟨ha, hb⟩ := h
                rw [← ha]
              · rw [hp] at h
                simp at h
                obtain ⟨ha, hb⟩ := h
                rw [← ha]
            unfold cancelOrder
            rw [hes2, getOrder_updateOrder, hget]
            simp

/-- Applying C6 at a concrete input: canceling an already filled order
fails and leaves the engine state unchanged. -/
theorem c6_witness :
    ∃ e, cancelOrder filledOrderState 1 = (filledOrderState, Except.error e) :=
  (c6_cancel_contract filledOrderState 1
      (by intro o ho
          simp only [filledOrderState, filledOrder] at ho
          simp only [List.mem_singleton] at ho
          subst ho
          norm_num)).2.1
    filledOrder rfl (Or.inl rfl)

/-- The matching loop changes nothing of the working order but its
remaining quantity, which drops by exactly the total traded quantity. -/
theorem matchLoop_working (fuel : Nat) : ∀ (inc : Order) (bk : OrderBook),
    (matchLoop fuel inc bk).working =
      { inc with remainingQuantity :=
          inc.remainingQuantity - sumQty (matchLoop fuel inc bk).trades } := by
  induction fuel with
  | zero =>
    intro inc bk
    simp [matchLoop, sumQty]
  | succ n ih =>
    intro inc bk
    unfold matchLoop
    split
    · simp [sumQty]
    · split
      · simp [sumQty]
      · split
        · dsimp only
          rw [ih]
          simp [sumQty, Order.mk.injEq, sub_sub]
        · simp [sumQty]

/-- canMatch computes exactly the specification's crossing test. -/
theorem canMatch_iff_specCross (inc rest : Order) :
    canMatch inc rest = true ↔ specCross inc rest := by
  unfold canMatch specCross
  by_cases ht : inc.type = OrderType.market
  · simp [ht]
  · cases hip : inc.price with
    | none => simp [ht, hip]
    | some ip =>
      cases hrp : rest.price with
      | none => simp [ht, hip, hrp]
      | some rp =>
        by_cases hs : inc.side = OrderSide.buy
        · simp [ht, hip, hrp, hs]
        · simp [ht, hip, hrp, hs]

/-- C3: Matcher.Match trades against the best opposing resting order exactly
when the crossing test holds: canMatch equals the spec's crossing predicate
(a market incoming order crosses whenever an opposing resting order exists;
a limit order crosses on the non-strict price comparison); with no best
opposing order, or a best one that does not cross, the loop stops with no
trades; with a crossing best opposing order and positive remaining quantity
the first trade executed is executeTrade against that best order. -/
theorem c3_match_exactly_on_crossing (inc : Order) (bk : OrderBook) :
    (∀ rest, canMatch inc rest = true ↔ specCross inc rest) ∧
    (bestOpp bk inc.side = none → (Matcher.Match inc bk).1.trades = []) ∧
    (∀ b, bestOpp bk inc.side = some b → ¬ specCross inc b →
      (Matcher.Match inc bk).1.trades = []) ∧
    (∀ b, bestOpp bk inc.side = some b → inc.remainingQuantity ≠ 0 →
      (specCross inc b ↔
        (Matcher.Match inc bk).1.trades.head? = some (executeTrade inc b))) := by
  refine ⟨canMatch_iff_specCross inc, ?_, ?_, ?_⟩
  · intro hbest
    rw [Match_trades]
    unfold matchLoop
    split
    · rfl
    · rw [hbest]
  · intro b hbest hnc
    have hcm : canMatch inc b = false := by
      rcases h : canMatch inc b with _ | _
      · rfl
      · exact absurd ((canMatch_iff_specCross inc b).mp h) hnc
    rw [Match_trades]
    unfold matchLoop
    split
    · rfl
    · rw [hbest]
      simp [hcm]
  · intro b hbest hrem
    rcases hcm : canMatch inc b with _ | _
    · have hns : ¬ specCross inc b := fun hs =>
        by simp [(canMatch_iff_specCross inc b).mpr hs] at hcm
      have : (Matcher.Match inc bk).1.trades = [] := by
        rw [Match_trades]
        unfold matchLoop
        split
        · rfl
        · rw [hbest]
          simp [hcm]
      simp [this, hns]
    · have hs : specCross inc b := (canMatch_iff_specCross inc b).mp hcm
      have : (Matcher.Match inc bk).1.trades.head? = some (executeTrade inc b) := by
        rw [Match_trades]
        unfold matchLoop
        split
        · exact absurd (by assumption) hrem
        · rw [hbest]
          simp [hcm]
      simp [this, hs]

/-- Applying C3 at a concrete input: a crossing incoming buy executes its
first trade against the best ask. -/
theorem c3_witness :
    (Matcher.Match (mkOrder 2 OrderSide.buy OrderType.limit (some 100) 1)
        oneAskState.book).1.trades.head? =
      some (executeTrade (mkOrder 2 OrderSide.buy OrderType.limit (some 100) 1) restingSell) :=
  ((c3_match_exactly_on_crossing (mkOrder 2 OrderSide.buy OrderType.limit (some 100) 1)
        oneAskState.book).2.2.2 restingSell rfl (by norm_num [mkOrder])).mp
    (Or.inr ⟨100, 100, rfl, rfl, by norm_num⟩)

/-- The best order of a side is one of the side's resting orders. -/
theorem bestOfLevels_mem (ls : List PriceLevel) (b : Order)
    (h : bestOfLevels ls = some b) : b ∈ ordersOfLevels ls := by
  unfold bestOfLevels at h
  cases ls with
  | nil => cases h
  | cons l rest =>
    unfold ordersOfLevels
    simp only [List.map_cons, List.flatten_cons, List.mem_append]
    exact Or.inl (List.mem_of_mem_head? h)

/-- Removing an order from a side keeps a sublist of the side's orders. -/
theorem removeFirstById_sublist (os : List Order) (oid : Int) :
    (removeFirstById os oid).1.Sublist os := by
  induction os with
  | nil => simp [removeFirstById]
  | cons o rest ih =>
    unfold removeFirstById
    by_cases h : o.id = oid
    · simp [h]
    · simp only [h, if_false, ite_false]
      exact List.Sublist.cons₂ o ih

/-- Membership in a side of the book survives level removal backwards. -/
theorem removeFromLevels_orders_subset (ls : List PriceLevel) (oid : Int) (p : ℚ) :
    ∀ o ∈ ordersOfLevels (removeFromLevels ls oid p).1, o ∈ ordersOfLevels ls := by
  induction ls with
  | nil =>
    intro o ho
    simpa [removeFromLevels] using ho
  | cons l rest ih =>
    intro o ho
    unfold removeFromLevels at ho
    by_cases hp : l.price = p
    · simp only [hp, if_true, ite_true] at ho
      by_cases hfound : (removeFirstById l.orders oid).2
      · simp only [hfound, if_true, ite_true] at ho
        by_cases hemp : (removeFirstById l.orders oid).1.isEmpty
        · simp only [hemp, if_true, ite_true] at ho
          simp only [ordersOfLevels, List.map_cons, List.flatten_cons, List.mem_append]
          right
          simpa [ordersOfLevels] using ho
        · simp only [hemp, if_false, ite_false] at ho
          simp [ordersOfLevels] at ho ⊢
          rcases ho with h | h
          · exact Or.inl ((removeFirstById_sublist l.orders oid).mem h)
          · exact Or.inr h
      · simp only [hfound, if_false, ite_false] at ho
        exact ho
    · simp only [hp, if_false, ite_false] at ho
      simp only [ordersOfLevels, List.map_cons, List.flatten_cons, List.mem_append] at ho ⊢
      rcases ho with h | h
      · exact Or.inl h
      · exact Or.inr (ih o h)

/-- An order of a side after replacing the best order is the replacement or
one of the original orders. -/
theorem setHeadOrder_orders (ls : List PriceLevel) (b2 : Order) :
    ∀ o ∈ ordersOfLevels (setHeadOrder ls b2), o = b2 ∨ o ∈ ordersOfLevels ls := by
  intro o ho
  cases ls with
  | nil =>
    exact Or.inr ho
  | cons l rest =>
    obtain ⟨lp, lords⟩ := l
    cases lords with
    | nil =>
      right
      simpa [setHeadOrder] using ho
    | cons x os =>
      simp only [setHeadOrder, ordersOfLevels, List.map_cons, List.flatten_cons,
        List.mem_append, List.mem_cons] at ho ⊢
      rcases ho with (h | h) | h
      · exact Or.inl h
      · exact Or.inr (Or.inl (Or.inr h))
      · exact Or.inr (Or.inr h)

/-- RemoveOrder never introduces orders into the book. -/
theorem removeOrder_allOrders_subset (bk : OrderBook) (oid : Int) (side : OrderSide)
    (price : Option ℚ) :
    ∀ o ∈ ((bk.removeOrder oid side price).1).allOrders, o ∈ bk.allOrders := by
  intro o ho
  unfold OrderBook.removeOrder at ho
  cases price with
  | none => exact ho
  | some p =>
    by_cases hs : side = OrderSide.buy
    · simp only [hs, if_true, ite_true] at ho
      unfold OrderBook.allOrders at ho ⊢
      dsimp only at ho
      rcases List.mem_append.mp ho with h | h
      · exact List.mem_append.mpr (Or.inl (removeFromLevels_orders_subset _ _ _ o h))
      · exact List.mem_append.mpr (Or.inr h)
    · simp only [hs, if_false, ite_false] at ho
      unfold OrderBook.allOrders at ho ⊢
      dsimp only at ho
      rcases List.mem_append.mp ho with h | h
      · exact List.mem_append.mpr (Or.inl h)
      · exact List.mem_append.mpr (Or.inr (removeFromLevels_orders_subset _ _ _ o h))

/-- The best opposing order rests in the book. -/
theorem bestOpp_mem_allOrders (bk : OrderBook) (s : OrderSide) (b : Order)
    (h : bestOpp bk s = some b) : b ∈ bk.allOrders := by
  unfold bestOpp at h
  by_cases hs : s = OrderSide.buy
  · rw [if_pos hs] at h
    exact List.mem_append.mpr (Or.inr (bestOfLevels_mem _ _ h))
  · rw [if_neg hs] at h
    exact List.mem_append.mpr (Or.inl (bestOfLevels_mem _ _ h))

/-- Every entry of the loop's updated list carries the id of an order that
was resting in the book given to the loop. -/
theorem matchLoop_updated_ids (fuel : Nat) :
    ∀ (inc : Order) (bk : OrderBook), ∀ u ∈ (matchLoop fuel inc bk).updated,
      ∃ o ∈ bk.allOrders, u.id = o.id := by
  induction fuel with
  | zero =>
    intro inc bk u hu
    simp [matchLoop] at hu
  | succ n ih =>
    intro inc bk u hu
    unfold matchLoop at hu
    split at hu
    · simp at hu
    · split at hu
      · simp at hu
      · rename_i best heq
        split at hu
        · dsimp only at hu
          rw [List.mem_cons] at hu
          rcases hu with hu | hu
          · refine ⟨best, bestOpp_mem_allOrders bk inc.side best heq, ?_⟩
            rw [hu]
          · by_cases h0 : best.remainingQuantity - (executeTrade inc best).quantity = 0
            · rw [if_pos h0] at hu
              obtain ⟨o2, ho2, hid⟩ := ih _ _ u hu
              exact ⟨o2, removeOrder_allOrders_subset _ _ _ _ o2 ho2, hid⟩
            · rw [if_neg h0] at hu
              by_cases hs : inc.side = OrderSide.buy
              · rw [if_pos hs] at hu
                obtain ⟨o2, ho2, hid⟩ := ih _ _ u hu
                unfold OrderBook.allOrders at ho2 ⊢
                dsimp only at ho2
                rcases List.mem_append.mp ho2 with h2 | h2
                · exact ⟨o2, List.mem_append.mpr (Or.inl h2), hid⟩
                · rcases setHeadOrder_orders _ _ o2 h2 with h3 | h3
                  · refine ⟨best, List.mem_append.mpr ?_, ?_⟩
                    · have := bestOpp_mem_allOrders bk inc.side best heq
                      exact List.mem_append.mp this
                    · rw [hid, h3]
                  · exact ⟨o2, List.mem_append.mpr (Or.inr h3), hid⟩
              · rw [if_neg hs] at hu
                obtain ⟨o2, ho2, hid⟩ := ih _ _ u hu
                unfold OrderBook.allOrders at ho2 ⊢
                dsimp only at ho2
                rcases List.mem_append.mp ho2 with h2 | h2
                · rcases setHeadOrder_orders _ _ o2 h2 with h3 | h3
                  · refine ⟨best, List.mem_append.mpr ?_, ?_⟩
                    · have := bestOpp_mem_allOrders bk inc.side best heq
                      exact List.mem_append.mp this
                    · rw [hid, h3]
                  · exact ⟨o2, List.mem_append.mpr (Or.inl h3), hid⟩
                · exact ⟨o2, List.mem_append.mpr (Or.inr h2), hid⟩
        · simp at hu

/-- C4: after the matching loop Matcher.Match finalizes the incoming order
(whose remaining quantity equals its initial remaining minus the total
traded quantity): zero remaining gives status Filled, appended last to
updated_orders, no leftover; positive remaining on a limit order gives the
leftover with status PartiallyFilled when something filled and the original
Open status otherwise, and the incoming order is in no updated_orders
entry; positive remaining on a market order gives status Canceled with
remaining zeroed, appended last to updated_orders, and no leftover. -/
theorem c4_finalization (inc : Order) (bk : OrderBook)
    (hOpen : inc.status = OrderStatus.opened)
    (hNew : ∀ o ∈ bk.allOrders, o.id ≠ inc.id) :
    (inc.remainingQuantity - sumQty (Matcher.Match inc bk).1.trades = 0 →
      (Matcher.Match inc bk).1.incomingOrderLeft = none ∧
      (Matcher.Match inc bk).1.updatedOrders.getLast? =
        some { inc with remainingQuantity := 0, status := OrderStatus.filled }) ∧
    (inc.remainingQuantity - sumQty (Matcher.Match inc bk).1.trades ≠ 0 →
      inc.type = OrderType.limit →
      (Matcher.Match inc bk).1.incomingOrderLeft =
        some { inc with
          remainingQuantity := inc.remainingQuantity - sumQty (Matcher.Match inc bk).1.trades,
          status := if inc.remainingQuantity - sumQty (Matcher.Match inc bk).1.trades <
              inc.initialQuantity then OrderStatus.partiallyFilled else OrderStatus.opened } ∧
      ∀ u ∈ (Matcher.Match inc bk).1.updatedOrders, u.id ≠ inc.id) ∧
    (inc.remainingQuantity - sumQty (Matcher.Match inc bk).1.trades ≠ 0 →
      inc.type = OrderType.market →
      (Matcher.Match inc bk).1.incomingOrderLeft = none ∧
      (Matcher.Match inc bk).1.updatedOrders.getLast? =
        some { inc with remainingQuantity := 0, status := OrderStatus.canceled }) := by
  have hw := matchLoop_working (countOrders (oppLevels bk inc.side) + 1) inc bk
  have htr := Match_trades inc bk
  refine ⟨?_, ?_, ?_⟩
  · intro h0
    rw [htr] at h0
    unfold Matcher.Match
    dsimp only
    rw [hw]
    dsimp only
    rw [if_neg (by simp [h0])]
    simp [h0, List.getLast?_concat]
  · intro hne hlim
    rw [htr] at hne
    have hupd2 : (Matcher.Match inc bk).1.updatedOrders =
        (matchLoop (countOrders (oppLevels bk inc.side) + 1) inc bk).updated := by
      unfold Matcher.Match
      dsimp only
      rw [hw]
      dsimp only
      rw [if_pos hne, if_pos hlim]
    refine ⟨?_, ?_⟩
    · rw [htr]
      unfold Matcher.Match
      dsimp only
      rw [hw]
      dsimp only
      rw [if_pos hne, if_pos hlim]
      by_cases hlt : inc.remainingQuantity -
          sumQty (matchLoop (countOrders (oppLevels bk inc.side) + 1) inc bk).trades <
          inc.initialQuantity
      · simp [hlt]
      · simp [hlt, hOpen]
    · intro u hu
      rw [hupd2] at hu
      obtain ⟨o, ho, hid⟩ := matchLoop_updated_ids _ inc bk u hu
      rw [hid]
      exact hNew o ho
  · intro hne hmkt
    rw [htr] at hne
    unfold Matcher.Match
    dsimp only
    rw [hw]
    dsimp only
    rw [if_pos hne, if_neg (by simp [hmkt])]
    simp [List.getLast?_concat]

/-- Applying C4 at a concrete input: an exactly filled incoming limit buy
ends Filled, appended to the updated orders, with no leftover. -/
theorem c4_witness :
    (Matcher.Match (mkOrder 2 OrderSide.buy OrderType.limit (some 100) 1)
        oneAskState.book).1.incomingOrderLeft = none ∧
    (Matcher.Match (mkOrder 2 OrderSide.buy OrderType.limit (some 100) 1)
        oneAskState.book).1.updatedOrders.getLast? =
      some { mkOrder 2 OrderSide.buy OrderType.limit (some 100) 1 with
        remainingQuantity := 0, status := OrderStatus.filled } :=
  (c4_finalization (mkOrder 2 OrderSide.buy OrderType.limit (some 100) 1) oneAskState.book
      rfl
      (by intro o ho
          simp [OrderBook.allOrders, ordersOfLevels, oneAskState, restingSell, mkOrder] at ho
          subst ho
          norm_num [mkOrder])).1
    (by norm_num [mkOrder, sumQty, Matcher.Match, matchLoop, oneAskState, restingSell,
          oppLevels, countOrders, bestOpp, OrderBook.getBestAsk, OrderBook.getBestBid,
          bestOfLevels, canMatch, executeTrade, OrderBook.removeOrder, removeFromLevels,
          removeFirstById])

/-- executeTrade's quantity is the minimum of the two remaining quantities. -/
theorem executeTrade_quantity (inc rest : Order) :
    (executeTrade inc rest).quantity =
      min inc.remainingQuantity rest.remainingQuantity := by
  unfold executeTrade
  dsimp only
  by_cases h : rest.remainingQuantity < inc.remainingQuantity
  · rw [if_pos h, min_eq_right (le_of_lt h)]
  · rw [if_neg h, min_eq_left (le_of_not_lt h)]

/-- executeTrade's price is the resting order's when it is a limit order. -/
theorem executeTrade_price (inc rest : Order) (p : ℚ)
    (htype : rest.type = OrderType.limit) (hp : rest.price = some p) :
    (executeTrade inc rest).price = p := by
  unfold executeTrade
  dsimp only
  by_cases hm : inc.type = OrderType.market
  · rw [if_pos hm, hp]
    rfl
  · rw [if_neg hm, if_pos htype, hp]
    rfl

/-- A loop on an exhausted working order emits nothing and changes nothing. -/
theorem matchLoop_zero_rem (fuel : Nat) (inc : Order) (bk : OrderBook)
    (h : inc.remainingQuantity = 0) :
    matchLoop fuel inc bk = ⟨inc, bk, [], []⟩ := by
  cases fuel with
  | zero => rfl
  | succ n =>
    unfold matchLoop
    rw [if_pos h]

/-- Level removal keeps the side well-formed. -/
theorem removeFromLevels_sideWF (s : OrderSide) (ls : List PriceLevel) (oid : Int) (p : ℚ)
    (h : sideWF s ls) : sideWF s (removeFromLevels ls oid p).1 := by
  induction ls with
  | nil =>
    intro l hl
    simp [removeFromLevels] at hl
  | cons l rest ih =>
    have hhead := h l (List.mem_cons_self l rest)
    have htail : sideWF s rest := fun x hx => h x (List.mem_cons_of_mem l hx)
    intro l2 hl2
    unfold removeFromLevels at hl2
    by_cases hp : l.price = p
    · rw [if_pos hp] at hl2
      by_cases hfound : (removeFirstById l.orders oid).2
      · rw [if_pos hfound] at hl2
        by_cases hemp : (removeFirstById l.orders oid).1.isEmpty
        · rw [if_pos hemp] at hl2
          exact htail l2 hl2
        · rw [if_neg hemp] at hl2
          rcases List.mem_cons.mp hl2 with h2 | h2
          · subst h2
            refine ⟨by simpa [List.isEmpty_iff] using hemp, ?_⟩
            intro o ho
            exact hhead.2 o ((removeFirstById_sublist l.orders oid).mem ho)
          · exact htail l2 h2
      · rw [if_neg hfound] at hl2
        exact h l2 hl2
    · rw [if_neg hp] at hl2
      rcases List.mem_cons.mp hl2 with h2 | h2
      · subst h2
        exact hhead
      · exact ih htail l2 h2

/-- Level removal keeps a sublist of the side's prices. -/
theorem removeFromLevels_priceMap_sublist (ls : List PriceLevel) (oid : Int) (p : ℚ) :
    ((removeFromLevels ls oid p).1.map PriceLevel.price).Sublist
      (ls.map PriceLevel.price) := by
  induction ls with
  | nil => simp [removeFromLevels]
  | cons l rest ih =>
    unfold removeFromLevels
    by_cases hp : l.price = p
    · rw [if_pos hp]
      by_cases hfound : (removeFirstById l.orders oid).2
      · rw [if_pos hfound]
        by_cases hemp : (removeFirstById l.orders oid).1.isEmpty
        · rw [if_pos hemp]
          simp only [List.map_cons]
          exact (List.Sublist.refl _).cons l.price
        · rw [if_neg hemp]
          simp only [List.map_cons]
          exact (List.Sublist.refl _).cons₂ l.price
      · rw [if_neg hfound]
    · rw [if_neg hp]
      simp only [List.map_cons]
      exact ih.cons₂ l.price

/-- RemoveOrder keeps the whole book well-formed. -/
theorem removeOrder_WF (bk : OrderBook) (oid : Int) (side : OrderSide) (price : Option ℚ)
    (h : bk.WF) : ((bk.removeOrder oid side price).1).WF := by
  obtain ⟨hsb, hsa, hwb, hwa⟩ := h
  unfold OrderBook.removeOrder
  cases price with
  | none => exact ⟨hsb, hsa, hwb, hwa⟩
  | some p =>
    by_cases hs : side = OrderSide.buy
    · simp only [hs, if_true, ite_true]
      exact ⟨List.Pairwise.sublist (removeFromLevels_priceMap_sublist bk.bids oid p) hsb, hsa,
        removeFromLevels_sideWF _ _ _ _ hwb, hwa⟩
    · simp only [hs, if_false, ite_false]
      exact ⟨hsb, List.Pairwise.sublist (removeFromLevels_priceMap_sublist bk.asks oid p) hsa,
        hwb, removeFromLevels_sideWF _ _ _ _ hwa⟩

/-- Replacing the best order keeps the side's prices unchanged. -/
theorem setHeadOrder_priceMap (ls : List PriceLevel) (b2 : Order) :
    (setHeadOrder ls b2).map PriceLevel.price = ls.map PriceLevel.price := by
  cases ls with
  | nil => rfl
  | cons l rest =>
    obtain ⟨lp, lords⟩ := l
    cases lords with
    | nil => rfl
    | cons x os => rfl

/-- Replacing the best order with one of equal price, side and type keeps
the side well-formed. -/
theorem setHeadOrder_sideWF (s : OrderSide) (ls : List PriceLevel) (b b2 : Order)
    (h : sideWF s ls) (hb : bestOfLevels ls = some b)
    (hprice : b2.price = b.price) (hside : b2.side = b.side) (htype : b2.type = b.type) :
    sideWF s (setHeadOrder ls b2) := by
  cases ls with
  | nil =>
    intro l hl
    cases hl
  | cons l rest =>
    obtain ⟨lp, lords⟩ := l
    cases lords with
    | nil => exact h
    | cons x os =>
      have hx : b = x := by
        simpa [bestOfLevels] using hb.symm
      subst hx
      intro l2 hl2
      rcases List.mem_cons.mp hl2 with h2 | h2
      · subst h2
        have hhead := h ⟨lp, b :: os⟩ (List.mem_cons_self _ _)
        have hbp := hhead.2 b (List.mem_cons_self b os)
        refine ⟨by simp [setHeadOrder], ?_⟩
        intro o ho
        simp only [setHeadOrder] at ho
        rcases List.mem_cons.mp ho with h3 | h3
        · subst h3
          exact ⟨by rw [hprice]; exact hbp.1, by rw [hside]; exact hbp.2.1,
            by rw [htype]; exact hbp.2.2⟩
        · exact hhead.2 o (List.mem_cons_of_mem b h3)
      · exact h l2 (List.mem_cons_of_mem _ h2)

/-- The matching loop keeps the book well-formed. -/
theorem matchLoop_WF (fuel : Nat) : ∀ (inc : Order) (bk : OrderBook), bk.WF →
    ((matchLoop fuel inc bk).book).WF := by
  induction fuel with
  | zero =>
    intro inc bk h
    exact h
  | succ n ih =>
    intro inc bk h
    unfold matchLoop
    split
    · exact h
    · split
      · exact h
      · rename_i best heq
        split
        · dsimp only
          by_cases h0 : best.remainingQuantity - (executeTrade inc best).quantity = 0
          · rw [if_pos h0]
            exact ih _ _ (removeOrder_WF bk best.id best.side best.price h)
          · rw [if_neg h0]
            by_cases hs : inc.side = OrderSide.buy
            · rw [if_pos hs]
              refine ih _ _ ⟨h.1, ?_, h.2.2.1, ?_⟩
              · unfold sideSorted
                dsimp only
                rw [setHeadOrder_priceMap]
                exact h.2.1
              · refine setHeadOrder_sideWF OrderSide.sell bk.asks best _ h.2.2.2 ?_ rfl rfl rfl
                unfold bestOpp at heq
                rw [if_pos hs] at heq
                exact heq
            · rw [if_neg hs]
              refine ih _ _ ⟨?_, h.2.1, ?_, h.2.2.2⟩
              · unfold sideSorted
                dsimp only
                rw [setHeadOrder_priceMap]
                exact h.1
              · refine setHeadOrder_sideWF OrderSide.buy bk.bids best _ h.2.2.1 ?_ rfl rfl rfl
                unfold bestOpp at heq
                rw [if_neg hs] at heq
                exact heq
        · exact h

/-- The best opposing order rests on the opposing side. -/
theorem bestOpp_mem_opp (bk : OrderBook) (s : OrderSide) (b : Order)
    (h : bestOpp bk s = some b) : b ∈ ordersOfLevels (oppLevels bk s) := by
  unfold bestOpp at h
  unfold oppLevels
  by_cases hs : s = OrderSide.buy
  · rw [if_pos hs] at h
    rw [if_pos hs]
    exact bestOfLevels_mem _ _ h
  · rw [if_neg hs] at h
    rw [if_neg hs]
    exact bestOfLevels_mem _ _ h

/-- In a well-formed book the best opposing order is a limit order whose
price is the opposing side's best price. -/
theorem bestOpp_props (bk : OrderBook) (s : OrderSide) (b : Order) (hWF : bk.WF)
    (h : bestOpp bk s = some b) :
    b.type = OrderType.limit ∧
    (∃ p, b.price = some p ∧ headPrice (oppLevels bk s) = some p) ∧
    b.side = (if s = OrderSide.buy then OrderSide.sell else OrderSide.buy) := by
  unfold bestOpp at h
  unfold oppLevels headPrice
  by_cases hs : s = OrderSide.buy
  · rw [if_pos hs] at h
    rw [if_pos hs, if_pos hs]
    unfold OrderBook.getBestAsk bestOfLevels at h
    cases hasks : bk.asks with
    | nil =>
      rw [hasks] at h
      cases h
    | cons l rest =>
      rw [hasks] at h
      have hb : b ∈ l.orders := List.mem_of_mem_head? h
      have hprops := (hWF.2.2.2 l (by rw [hasks]; exact List.mem_cons_self l rest)).2 b hb
      exact ⟨hprops.2.2, ⟨l.price, hprops.1, by simp⟩, hprops.2.1⟩
  · rw [if_neg hs] at h
    rw [if_neg hs, if_neg hs]
    unfold OrderBook.getBestBid bestOfLevels at h
    cases hbids : bk.bids with
    | nil =>
      rw [hbids] at h
      cases h
    | cons l rest =>
      rw [hbids] at h
      have hb : b ∈ l.orders := List.mem_of_mem_head? h
      have hprops := (hWF.2.2.1 l (by rw [hbids]; exact List.mem_cons_self l rest)).2 b hb
      exact ⟨hprops.2.2, ⟨l.price, hprops.1, by simp⟩, hprops.2.1⟩

/-- When the resting order is not exhausted by the trade, the trade took
the whole incoming remaining quantity. -/
theorem trade_qty_of_bestRem_ne (inc best : Order)
    (h0 : best.remainingQuantity - (executeTrade inc best).quantity ≠ 0) :
    (executeTrade inc best).quantity = inc.remainingQuantity := by
  rw [executeTrade_quantity] at h0 ⊢
  rcases le_total inc.remainingQuantity best.remainingQuantity with h | h
  · exact min_eq_left h
  · rw [min_eq_right h] at h0
    exact absurd (sub_self best.remainingQuantity) h0

/-- RemoveOrder only removes orders, on either side. -/
theorem removeOrder_oppLevels_subset (bk : OrderBook) (oid : Int) (side : OrderSide)
    (price : Option ℚ) (s : OrderSide) :
    ∀ o ∈ ordersOfLevels (oppLevels ((bk.removeOrder oid side price).1) s),
      o ∈ ordersOfLevels (oppLevels bk s) := by
  intro o ho
  unfold oppLevels at ho ⊢
  unfold OrderBook.removeOrder at ho
  by_cases hs : s = OrderSide.buy
  · rw [if_pos hs] at ho ⊢
    cases price with
    | none => exact ho
    | some p =>
      dsimp only at ho
      by_cases hside : side = OrderSide.buy
      · rw [if_pos hside] at ho
        dsimp only at ho
        exact ho
      · rw [if_neg hside] at ho
        dsimp only at ho
        exact removeFromLevels_orders_subset _ _ _ o ho
  · rw [if_neg hs] at ho ⊢
    cases price with
    | none => exact ho
    | some p =>
      dsimp only at ho
      by_cases hside : side = OrderSide.buy
      · rw [if_pos hside] at ho
        dsimp only at ho
        exact removeFromLevels_orders_subset _ _ _ o ho
      · rw [if_neg hside] at ho
        dsimp only at ho
        exact ho

/-- The maker side id recorded in a trade is the resting order's id. -/
theorem restingIdOf_executeTrade (inc rest : Order) :
    restingIdOf inc.side (executeTrade inc rest) = rest.id := by
  unfold restingIdOf executeTrade
  dsimp only
  by_cases hs : inc.side = OrderSide.buy
  · rw [if_pos hs, if_pos hs]
  · rw [if_neg hs, if_neg hs]

/-- Every trade of the matching loop takes the minimum of the incoming
order's remaining quantity at that moment (its start value less what the
earlier trades consumed) and the remaining quantity of the resting order it
executed against -- the one whose id the trade records on its maker side --
and is priced at that resting order's price. -/
theorem matchLoop_trades_minPrice (fuel : Nat) :
    ∀ (inc : Order) (bk : OrderBook), bk.WF →
    ∀ (k : Nat) (t : Trade), (matchLoop fuel inc bk).trades[k]? = some t →
      ∃ ro ∈ ordersOfLevels (oppLevels bk inc.side),
        restingIdOf inc.side t = ro.id ∧
        ro.price = some t.price ∧
        t.quantity =
          min (inc.remainingQuantity - sumQty ((matchLoop fuel inc bk).trades.take k))
              ro.remainingQuantity := by
  induction fuel with
  | zero =>
    intro inc bk _ k t hk
    simp [matchLoop] at hk
  | succ n ih =>
    intro inc bk hWF k t
    unfold matchLoop
    by_cases hrem : inc.remainingQuantity = 0
    · rw [if_pos hrem]
      intro hk
      simp at hk
    · rw [if_neg hrem]
      cases heq : bestOpp bk inc.side with
      | none =>
        simp only [heq]
        intro hk
        simp at hk
      | some best =>
        simp only [heq]
        by_cases hcm : canMatch inc best = true
        · rw [if_pos hcm]
          dsimp only
          cases k with
          | zero =>
            intro hk
            rw [List.getElem?_cons_zero] at hk
            injection hk with hk
            subst hk
            obtain ⟨htype, ⟨p, hp, hphead⟩, hside⟩ := bestOpp_props bk inc.side best hWF heq
            refine ⟨best, bestOpp_mem_opp bk inc.side best heq,
              restingIdOf_executeTrade inc best, ?_, ?_⟩
            · rw [hp, executeTrade_price inc best p htype hp]
            · rw [List.take_zero, executeTrade_quantity]
              simp [sumQty]
          | succ k2 =>
            by_cases h0 : best.remainingQuantity - (executeTrade inc best).quantity = 0
            · rw [if_pos h0]
              intro hk
              rw [List.getElem?_cons_succ] at hk
              obtain ⟨ro, hro, hrid, hprice, hqty⟩ :=
                ih _ _ (removeOrder_WF bk best.id best.side best.price hWF) k2 t hk
              refine ⟨ro, removeOrder_oppLevels_subset bk best.id best.side best.price
                inc.side ro hro, hrid, hprice, ?_⟩
              rw [List.take_succ_cons, hqty]
              congr 1
              simp [sumQty, sub_sub]
            · rw [if_neg h0]
              have hz : ({ inc with remainingQuantity :=
                  inc.remainingQuantity - (executeTrade inc best).quantity } :
                    Order).remainingQuantity = 0 := by
                dsimp only
                rw [trade_qty_of_bestRem_ne inc best h0, sub_self]
              rw [matchLoop_zero_rem n _ _ hz]
              intro hk
              rw [List.getElem?_cons_succ] at hk
              simp at hk
        · rw [if_neg hcm]
          intro hk
          simp at hk

/-- C2: every trade emitted by Matcher.Match is priced at the price of the
resting order it executed against -- the order whose id the trade records
on its maker side -- and sized as the minimum of the incoming order's
remaining quantity at the moment of the trade (its start value less the
quantity the earlier trades consumed) and that resting order's remaining
quantity at that moment (each resting order trades at most once per
invocation, so this is its book value). -/
theorem c2_trade_quantity_and_price (inc : Order) (bk : OrderBook) (hWF : bk.WF) :
    ∀ (k : Nat) (t : Trade), (Matcher.Match inc bk).1.trades[k]? = some t →
      ∃ ro ∈ ordersOfLevels (oppLevels bk inc.side),
        restingIdOf inc.side t = ro.id ∧
        ro.price = some t.price ∧
        t.quantity =
          min (inc.remainingQuantity - sumQty ((Matcher.Match inc bk).1.trades.take k))
              ro.remainingQuantity := by
  intro k t hk
  rw [Match_trades] at hk ⊢
  exact matchLoop_trades_minPrice _ inc bk hWF k t hk

/-- Applying C2 at a concrete input: the single trade of a crossing buy
records the resting sell (id 1) as its counterparty, is priced at that
order's price 100 and sized min(1, 1) = 1. -/
theorem c2_witness :
    ∃ ro ∈ ordersOfLevels (oppLevels oneAskState.book crossingBuyOrder.side),
      restingIdOf crossingBuyOrder.side scenarioTrade = ro.id ∧
      ro.price = some scenarioTrade.price ∧
      scenarioTrade.quantity =
        min (crossingBuyOrder.remainingQuantity -
            sumQty (((Matcher.Match crossingBuyOrder oneAskState.book).1.trades).take 0))
          ro.remainingQuantity :=
  c2_trade_quantity_and_price crossingBuyOrder oneAskState.book
    (by refine ⟨?_, ?_, ?_, ?_⟩ <;>
          norm_num [sideSorted, sideWF, oneAskState, restingSell, mkOrder] <;> decide)
    0 scenarioTrade
    (by norm_num [crossingBuyOrder, scenarioTrade, mkOrder, Matcher.Match, matchLoop,
          oneAskState, restingSell, oppLevels, countOrders, bestOpp, OrderBook.getBestAsk,
          OrderBook.getBestBid, bestOfLevels, canMatch, executeTrade, OrderBook.removeOrder,
          removeFromLevels, removeFirstById])

/-- The opposing side of a buy is the ask side. -/
theorem oppLevels_buy (bk : OrderBook) : oppLevels bk OrderSide.buy = bk.asks := rfl

/-- The opposing side of a sell is the bid side. -/
theorem oppLevels_sell (bk : OrderBook) : oppLevels bk OrderSide.sell = bk.bids := rfl

/-- The best opposing order of a buy is the best ask. -/
theorem bestOpp_buy (bk : OrderBook) : bestOpp bk OrderSide.buy = bestOfLevels bk.asks := rfl

/-- The best opposing order of a sell is the best bid. -/
theorem bestOpp_sell (bk : OrderBook) : bestOpp bk OrderSide.sell = bestOfLevels bk.bids := rfl

/-- Removing the head order of the head level pops it from the side's
order sequence. -/
theorem removeFromLevels_pop (l : PriceLevel) (rest : List PriceLevel) (b : Order)
    (os : List Order) (p : ℚ) (hords : l.orders = b :: os) (hlp : l.price = p) :
    ordersOfLevels (l :: rest) =
      b :: ordersOfLevels (removeFromLevels (l :: rest) b.id p).1 := by
  have hrfb : removeFirstById l.orders b.id = (os, true) := by
    rw [hords]
    unfold removeFirstById
    rw [if_pos rfl]
  have hrfl : removeFromLevels (l :: rest) b.id p =
      (if os.isEmpty then rest else { l with orders := os } :: rest, true) := by
    simp only [removeFromLevels]
    rw [if_pos hlp, hrfb]
    rfl
  rw [hrfl]

  by_cases hos : (os : List Order).isEmpty
  · rw [if_pos hos]
    have hose : os = [] := by simpa [List.isEmpty_iff] using hos
    subst hose
    simp [ordersOfLevels, hords]
  · rw [if_neg hos]
    simp [ordersOfLevels, hords]

/-- Removing the best opposing order pops exactly the head of the opposing
side's order sequence. -/
theorem bestOpp_removal_pop (bk : OrderBook) (s : OrderSide) (b : Order) (hWF : bk.WF)
    (heq : bestOpp bk s = some b) :
    ordersOfLevels (oppLevels bk s) =
      b :: ordersOfLevels (oppLevels ((bk.removeOrder b.id b.side b.price).1) s) := by
  obtain ⟨htype, ⟨p, hp, hphead⟩, hside⟩ := bestOpp_props bk s b hWF heq
  cases s with
  | buy =>
    have hside2 : b.side = OrderSide.sell := by simpa using hside
    rw [bestOpp_buy] at heq
    rw [oppLevels_buy] at hphead ⊢
    have hrm : (bk.removeOrder b.id b.side b.price).1 =
        { bk with asks := (removeFromLevels bk.asks b.id p).1 } := by
      unfold OrderBook.removeOrder
      rw [hp, hside2]
      rfl
    rw [hrm, oppLevels_buy]
    dsimp only
    cases hasks : bk.asks with
    | nil =>
      rw [hasks] at heq
      cases heq
    | cons l rest =>
      rw [hasks] at heq hphead
      unfold headPrice at hphead
      simp only [List.map_cons, List.head?_cons] at hphead
      injection hphead with hlp
      simp only [bestOfLevels] at heq
      cases hords : l.orders with
      | nil =>
        rw [hords] at heq
        cases heq
      | cons x os =>
        rw [hords] at heq
        simp only [List.head?_cons] at heq
        injection heq with hxb
        subst hxb
        exact removeFromLevels_pop l rest x os p hords hlp
  | sell =>
    have hside2 : b.side = OrderSide.buy := by simpa using hside
    rw [bestOpp_sell] at heq
    rw [oppLevels_sell] at hphead ⊢
    have hrm : (bk.removeOrder b.id b.side b.price).1 =
        { bk with bids := (removeFromLevels bk.bids b.id p).1 } := by
      unfold OrderBook.removeOrder
      rw [hp, hside2]
      rfl
    rw [hrm, oppLevels_sell]
    dsimp only
    cases hbids : bk.bids with
    | nil =>
      rw [hbids] at heq
      cases heq
    | cons l rest =>
      rw [hbids] at heq hphead
      unfold headPrice at hphead
      simp only [List.map_cons, List.head?_cons] at hphead
      injection hphead with hlp
      simp only [bestOfLevels] at heq
      cases hords : l.orders with
      | nil =>
        rw [hords] at heq
        cases heq
      | cons x os =>
        rw [hords] at heq
        simp only [List.head?_cons] at heq
        injection heq with hxb
        subst hxb
        exact removeFromLevels_pop l rest x os p hords hlp

/-- In a list whose images under a key function are pairwise distinct,
filtering on the key of a member returns exactly that member. -/
theorem filter_key_singleton {α β : Type} [DecidableEq β] (f : α → β) :
    ∀ (l : List α) (u : α), (l.map f).Nodup → u ∈ l →
      l.filter (fun x => f x = f u) = [u] := by
  intro l
  induction l with
  | nil =>
    intro u _ hu
    cases hu
  | cons a l ih =>
    intro u hnd hu
    rw [List.map_cons, List.nodup_cons] at hnd
    obtain ⟨ha, hnd2⟩ := hnd
    rcases List.mem_cons.mp hu with rfl | hu2
    · rw [List.filter_cons_of_pos (by simp)]
      have hnil : l.filter (fun x => f x = f u) = [] := by
        rw [List.filter_eq_nil_iff]
        intro x hx
        simp only [decide_eq_true_eq]
        intro hcontra
        exact ha (hcontra ▸ List.mem_map_of_mem f hx)
      rw [hnil]
    · rw [List.filter_cons_of_neg ?_]
      · exact ih u hnd2 hu2
      · simp only [decide_eq_true_eq]
        intro hcontra
        exact ha (hcontra ▸ List.mem_map_of_mem f hu2)

/-- Loop invariant for the matching loop's updated-orders list: the ids of
the updated entries are, in order, the resting-side ids of the trades; no
id repeats; and each entry is the unique resting order bearing its id,
carried at its final state for this run (remaining quantity reduced by the
total quantity of the trades against it, status Filled exactly when that
remaining quantity reaches zero, PartiallyFilled otherwise). -/
theorem matchLoop_updated_spec (fuel : Nat) :
    ∀ (inc : Order) (bk : OrderBook), bk.WF →
    ((ordersOfLevels (oppLevels bk inc.side)).map Order.id).Nodup →
      (matchLoop fuel inc bk).updated.map Order.id
          = (matchLoop fuel inc bk).trades.map (restingIdOf inc.side)
      ∧ ((matchLoop fuel inc bk).updated.map Order.id).Nodup
      ∧ ∀ u ∈ (matchLoop fuel inc bk).updated,
          ∃ ro ∈ ordersOfLevels (oppLevels bk inc.side),
            u.id = ro.id
            ∧ u.remainingQuantity = ro.remainingQuantity -
                sumQty ((matchLoop fuel inc bk).trades.filter
                  (fun t => restingIdOf inc.side t = ro.id))
            ∧ u.status = (if u.remainingQuantity = 0 then OrderStatus.filled
                else OrderStatus.partiallyFilled)
  := by
  induction fuel with
  | zero =>
    intro inc bk _ _
    simp [matchLoop]
  | succ n ih =>
    intro inc bk hWF hNodup
    unfold matchLoop
    by_cases hrem : inc.remainingQuantity = 0
    · rw [if_pos hrem]
      simp
    · rw [if_neg hrem]
      cases heq : bestOpp bk inc.side with
      | none =>
        simp only [heq]
        simp
      | some best =>
        simp only [heq]
        by_cases hcm : canMatch inc best = true
        · rw [if_pos hcm]
          dsimp only
          by_cases h0 : best.remainingQuantity - (executeTrade inc best).quantity = 0
          · simp only [if_pos h0]
            have hpop : ordersOfLevels (oppLevels bk inc.side) =
                best :: ordersOfLevels
                  (oppLevels ((bk.removeOrder best.id best.side best.price).1) inc.side) :=
              bestOpp_removal_pop bk inc.side best hWF heq
            rw [hpop] at hNodup
            rw [List.map_cons, List.nodup_cons] at hNodup
            obtain ⟨hbid, hNodup2⟩ := hNodup
            obtain ⟨ihmap, ihnd, ihmem⟩ :=
              ih { inc with remainingQuantity :=
                    inc.remainingQuantity - (executeTrade inc best).quantity }
                ((bk.removeOrder best.id best.side best.price).1)
                (removeOrder_WF bk best.id best.side best.price hWF) hNodup2
            have hmap2 : (matchLoop n
                  { inc with remainingQuantity :=
                      inc.remainingQuantity - (executeTrade inc best).quantity }
                  ((bk.removeOrder best.id best.side best.price).1)).updated.map Order.id
                = (matchLoop n
                  { inc with remainingQuantity :=
                      inc.remainingQuantity - (executeTrade inc best).quantity }
                  ((bk.removeOrder best.id best.side best.price).1)).trades.map
                    (restingIdOf inc.side) := ihmap
            have hsub : ∀ v ∈ (matchLoop n
                  { inc with remainingQuantity :=
                      inc.remainingQuantity - (executeTrade inc best).quantity }
                  ((bk.removeOrder best.id best.side best.price).1)).updated,
                v.id ∈ (ordersOfLevels
                  (oppLevels ((bk.removeOrder best.id best.side best.price).1)
                    inc.side)).map Order.id := by
              intro v hv
              obtain ⟨ro, hro, hids, _, _⟩ := ihmem v hv
              have hm := List.mem_map_of_mem Order.id hro
              rw [hids]
              exact hm
            refine ⟨?_, ?_, ?_⟩
            · rw [List.map_cons, List.map_cons, hmap2, restingIdOf_executeTrade]
            · rw [List.map_cons, List.nodup_cons]
              refine ⟨?_, ihnd⟩
              intro hmem
              rcases List.mem_map.mp hmem with ⟨u, hu, hid⟩
              apply hbid
              have huid := hsub u hu
              rw [hid] at huid
              exact huid
            · intro u hu
              rcases List.mem_cons.mp hu with rfl | hu2
              · refine ⟨best, by rw [hpop]; exact List.mem_cons_self _ _, rfl, ?_, ?_⟩
                · rw [List.filter_cons_of_pos
                      (by simp [restingIdOf_executeTrade])]
                  have hnil : (matchLoop n
                        { inc with remainingQuantity :=
                            inc.remainingQuantity - (executeTrade inc best).quantity }
                        ((bk.removeOrder best.id best.side best.price).1)).trades.filter
                      (fun t => restingIdOf inc.side t = best.id) = [] := by
                    rw [List.filter_eq_nil_iff]
                    intro s hs
                    simp only [decide_eq_true_eq]
                    intro hcontra
                    apply hbid
                    have hmem2 : restingIdOf inc.side s ∈ (matchLoop n
                        { inc with remainingQuantity :=
                            inc.remainingQuantity - (executeTrade inc best).quantity }
                        ((bk.removeOrder best.id best.side best.price).1)).trades.map
                          (restingIdOf inc.side) :=
                      List.mem_map_of_mem _ hs
                    rw [← hmap2] at hmem2
                    rcases List.mem_map.mp hmem2 with ⟨u2, hu2, hid2⟩
                    have huid := hsub u2 hu2
                    rw [hid2, hcontra] at huid
                    exact huid
                  rw [hnil]
                  simp [sumQty]
                · dsimp only
                  rw [if_pos h0]
              · obtain ⟨ro, hro, hids, hremq, hstat⟩ := ihmem u hu2
                refine ⟨ro, by rw [hpop]; exact List.mem_cons_of_mem _ hro, hids, ?_, hstat⟩
                rw [List.filter_cons_of_neg ?_]
                · exact hremq
                · simp only [decide_eq_true_eq, restingIdOf_executeTrade]
                  intro hcontra
                  apply hbid
                  have huid := hsub u hu2
                  rw [hids, ← hcontra] at huid
                  exact huid
          · simp only [if_neg h0]
            have hz : ({ inc with remainingQuantity :=
                inc.remainingQuantity - (executeTrade inc best).quantity } :
                  Order).remainingQuantity = 0 := by
              dsimp only
              rw [trade_qty_of_bestRem_ne inc best h0, sub_self]
            rw [matchLoop_zero_rem n _ _ hz]
            refine ⟨?_, ?_, ?_⟩
            · simp [restingIdOf_executeTrade]
            · simp
            · intro u hu
              rcases List.mem_cons.mp hu with rfl | hu2
              · refine ⟨best, bestOpp_mem_opp bk inc.side best heq, rfl, ?_, ?_⟩
                · rw [List.filter_cons_of_pos (by simp [restingIdOf_executeTrade])]
                  simp [sumQty]
                · dsimp only
                  rw [if_neg h0]
              · cases hu2
        · rw [if_neg hcm]
          simp

/-- Filtering Matcher.Match's updated orders on any id other than the
incoming order's id sees only the loop's updated entries: the finalization
step appends at most one entry, and that entry carries the incoming id. -/
theorem Match_updated_filter (inc : Order) (bk : OrderBook) (rid : Int)
    (hne : rid ≠ inc.id) :
    (Matcher.Match inc bk).1.updatedOrders.filter (fun x => x.id = rid) =
      (matchLoop (countOrders (oppLevels bk inc.side) + 1) inc bk).updated.filter
        (fun x => x.id = rid) := by
  have hw := matchLoop_working (countOrders (oppLevels bk inc.side) + 1) inc bk
  have hne2 : ¬(inc.id = rid) := fun h => hne h.symm
  simp only [Matcher.Match]
  split
  · split
    · rfl
    · dsimp only
      rw [List.filter_append]
      have hfe : List.filter (fun x => decide (x.id = rid))
          [{ (matchLoop (countOrders (oppLevels bk inc.side) + 1) inc bk).working with
              status := OrderStatus.canceled, remainingQuantity := 0 }] = [] := by
        simp [hw, hne2]
      rw [hfe, List.append_nil]
  · dsimp only
    rw [List.filter_append]
    have hfe : List.filter (fun x => decide (x.id = rid))
        [{ (matchLoop (countOrders (oppLevels bk inc.side) + 1) inc bk).working with
            status := OrderStatus.filled }] = [] := by
      simp [hw, hne2]
    rw [hfe, List.append_nil]

/-- C7: in every Matcher.Match result (for a book whose opposing resting
orders carry pairwise-distinct ids, none equal to the incoming order's id),
each resting order that participated in a trade has exactly one entry in
the updated-orders list, and that entry carries its final post-match state:
its remaining quantity less the total quantity of this run's trades against
it, with status Filled when that reaches zero and PartiallyFilled
otherwise. -/
theorem c7_resting_updates_unique_final (inc : Order) (bk : OrderBook)
    (hWF : bk.WF)
    (hNodup : ((ordersOfLevels (oppLevels bk inc.side)).map Order.id).Nodup)
    (hfresh : inc.id ∉ (ordersOfLevels (oppLevels bk inc.side)).map Order.id) :
    ∀ t ∈ (Matcher.Match inc bk).1.trades,
      ∃ ro ∈ ordersOfLevels (oppLevels bk inc.side),
        restingIdOf inc.side t = ro.id ∧
        ∃ u, (Matcher.Match inc bk).1.updatedOrders.filter (fun x => x.id = ro.id) = [u]
          ∧ u.remainingQuantity = ro.remainingQuantity -
              sumQty ((Matcher.Match inc bk).1.trades.filter
                (fun s => restingIdOf inc.side s = ro.id))
          ∧ u.status = (if u.remainingQuantity = 0 then OrderStatus.filled
              else OrderStatus.partiallyFilled) := by
  intro t ht
  rw [Match_trades] at ht
  rw [Match_trades]
  obtain ⟨hmap, hnd, hmem⟩ :=
    matchLoop_updated_spec (countOrders (oppLevels bk inc.side) + 1) inc bk hWF hNodup
  have hmm : restingIdOf inc.side t ∈
      (matchLoop (countOrders (oppLevels bk inc.side) + 1) inc bk).trades.map
        (restingIdOf inc.side) :=
    List.mem_map_of_mem _ ht
  rw [← hmap] at hmm
  rcases List.mem_map.mp hmm with ⟨u, hu, hid⟩
  obtain ⟨ro, hro, hids, hremq, hstat⟩ := hmem u hu
  refine ⟨ro, hro, by rw [← hid, hids], u, ?_, hremq, hstat⟩
  have hne : ro.id ≠ inc.id := by
    intro hcontra
    apply hfresh
    rw [← hcontra]
    exact List.mem_map_of_mem Order.id hro
  rw [Match_updated_filter inc bk ro.id hne]
  rw [← hids]
  exact filter_key_singleton Order.id _ u hnd hu

/-- Applying C7 at a concrete input: the crossing buy's single trade
consumes restingSell, which appears exactly once in the updated orders,
Filled with remaining quantity 1 - 1 = 0. -/
theorem c7_witness :
    ∃ ro ∈ ordersOfLevels (oppLevels oneAskState.book crossingBuyOrder.side),
      restingIdOf crossingBuyOrder.side scenarioTrade = ro.id ∧
      ∃ u, (Matcher.Match crossingBuyOrder oneAskState.book).1.updatedOrders.filter
            (fun x => x.id = ro.id) = [u]
        ∧ u.remainingQuantity = ro.remainingQuantity -
            sumQty ((Matcher.Match crossingBuyOrder oneAskState.book).1.trades.filter
              (fun s => restingIdOf crossingBuyOrder.side s = ro.id))
        ∧ u.status = (if u.remainingQuantity = 0 then OrderStatus.filled
            else OrderStatus.partiallyFilled) :=
  c7_resting_updates_unique_final crossingBuyOrder oneAskState.book
    (by refine ⟨?_, ?_, ?_, ?_⟩ <;>
          norm_num [sideSorted, sideWF, oneAskState, restingSell, mkOrder] <;> decide)
    (by norm_num [ordersOfLevels, oppLevels, oneAskState, restingSell, mkOrder,
          crossingBuyOrder])
    (by norm_num [ordersOfLevels, oppLevels, oneAskState, restingSell, mkOrder,
          crossingBuyOrder])
    scenarioTrade
    (by norm_num [crossingBuyOrder, scenarioTrade, mkOrder, Matcher.Match, matchLoop,
          oneAskState, restingSell, oppLevels, countOrders, bestOpp, OrderBook.getBestAsk,
          OrderBook.getBestBid, bestOfLevels, canMatch, executeTrade, OrderBook.removeOrder,
          removeFromLevels, removeFirstById])

/-- The loop's fuel bound counts exactly the orders on a side. -/
theorem countOrders_eq_length (ls : List PriceLevel) :
    countOrders ls = (ordersOfLevels ls).length := by
  simp [countOrders, ordersOfLevels, List.length_flatten, List.map_map, Function.comp_def]

/-- In a sorted list, the head of any sublist is the head of the list or a
later element, hence related to it. -/
theorem head_of_sublist_sorted {α : Type} {lt : α → α → Prop} (l2 l : List α)
    (hsub : l2.Sublist l) (hsort : l.Pairwise lt) (x : α) (hx : l2.head? = some x) :
    ∃ h, l.head? = some h ∧ (h = x ∨ lt h x) := by
  have hmem : x ∈ l := hsub.subset (List.mem_of_mem_head? hx)
  cases l with
  | nil => cases hmem
  | cons h t =>
    refine ⟨h, rfl, ?_⟩
    rw [List.pairwise_cons] at hsort
    rcases List.mem_cons.mp hmem with rfl | hxt
    · exact Or.inl rfl
    · exact Or.inr (hsort.1 x hxt)

/-- A book whose side price lists are sublists of a sorted, uncrossed
book's remains uncrossed: the best bid can only drop, the best ask only
rise. -/
theorem notCrossed_of_priceMap_sublists (bk2 bk : OrderBook)
    (hsb : sideSorted (fun a b => b < a) bk.bids)
    (hsa : sideSorted (fun a b => a < b) bk.asks)
    (hnc : bk.notCrossed)
    (hb : (bk2.bids.map PriceLevel.price).Sublist (bk.bids.map PriceLevel.price))
    (ha : (bk2.asks.map PriceLevel.price).Sublist (bk.asks.map PriceLevel.price)) :
    bk2.notCrossed := by
  intro pb2 pa2 hpb2 hpa2
  obtain ⟨pb, hpb, hpbr⟩ := head_of_sublist_sorted _ _ hb hsb pb2 hpb2
  obtain ⟨pa, hpa, hpar⟩ := head_of_sublist_sorted _ _ ha hsa pa2 hpa2
  have hlt : pb < pa := hnc pb pa hpb hpa
  have h1 : pb2 ≤ pb := by
    rcases hpbr with rfl | hlt2
    · exact le_refl _
    · exact le_of_lt hlt2
  have h2 : pa ≤ pa2 := by
    rcases hpar with rfl | hlt2
    · exact le_refl _
    · exact le_of_lt hlt2
  exact lt_of_le_of_lt h1 (lt_of_lt_of_le hlt h2)

/-- Removing an order never introduces a price level on either side. -/
theorem removeOrder_priceMaps (bk : OrderBook) (oid : Int) (side : OrderSide)
    (price : Option ℚ) :
    (((bk.removeOrder oid side price).1).bids.map PriceLevel.price).Sublist
        (bk.bids.map PriceLevel.price)
      ∧ (((bk.removeOrder oid side price).1).asks.map PriceLevel.price).Sublist
        (bk.asks.map PriceLevel.price) := by
  cases price with
  | none => exact ⟨List.Sublist.refl _, List.Sublist.refl _⟩
  | some p =>
    unfold OrderBook.removeOrder
    dsimp only
    by_cases hs : side = OrderSide.buy
    · rw [if_pos hs]
      exact ⟨removeFromLevels_priceMap_sublist bk.bids oid p, List.Sublist.refl _⟩
    · rw [if_neg hs]
      exact ⟨List.Sublist.refl _, removeFromLevels_priceMap_sublist bk.asks oid p⟩

/-- The matching loop never introduces a price level on either side. -/
theorem matchLoop_priceMaps (fuel : Nat) : ∀ (inc : Order) (bk : OrderBook),
    (((matchLoop fuel inc bk).book).bids.map PriceLevel.price).Sublist
        (bk.bids.map PriceLevel.price)
      ∧ (((matchLoop fuel inc bk).book).asks.map PriceLevel.price).Sublist
        (bk.asks.map PriceLevel.price) := by
  induction fuel with
  | zero =>
    intro inc bk
    exact ⟨List.Sublist.refl _, List.Sublist.refl _⟩
  | succ n ih =>
    intro inc bk
    unfold matchLoop
    split
    · exact ⟨List.Sublist.refl _, List.Sublist.refl _⟩
    · split
      · exact ⟨List.Sublist.refl _, List.Sublist.refl _⟩
      · split
        · dsimp only
          split
          · obtain ⟨ih1, ih2⟩ := ih _ _
            obtain ⟨hr1, hr2⟩ := removeOrder_priceMaps bk _ _ _
            exact ⟨ih1.trans hr1, ih2.trans hr2⟩
          · split
            · obtain ⟨ih1, ih2⟩ := ih _ _
              refine ⟨ih1.trans ?_, ih2.trans ?_⟩
              · exact List.Sublist.refl _
              · dsimp only
                rw [setHeadOrder_priceMap]
            · obtain ⟨ih1, ih2⟩ := ih _ _
              refine ⟨ih1.trans ?_, ih2.trans ?_⟩
              · dsimp only
                rw [setHeadOrder_priceMap]
              · exact List.Sublist.refl _
        · exact ⟨List.Sublist.refl _, List.Sublist.refl _⟩

/-- Matcher.Match returns the loop's final book in every branch. -/
theorem Match_book (inc : Order) (bk : OrderBook) :
    (Matcher.Match inc bk).2 =
      (matchLoop (countOrders (oppLevels bk inc.side) + 1) inc bk).book := by
  simp only [Matcher.Match]
  split
  · split
    · rfl
    · rfl
  · rfl

/-- The matching loop keeps the book uncrossed. -/
theorem matchLoop_notCrossed (fuel : Nat) (inc : Order) (bk : OrderBook)
    (hWF : bk.WF) (hnc : bk.notCrossed) : ((matchLoop fuel inc bk).book).notCrossed := by
  obtain ⟨h1, h2⟩ := matchLoop_priceMaps fuel inc bk
  exact notCrossed_of_priceMap_sublists _ bk hWF.1 hWF.2.1 hnc h1 h2

/-- Under the side invariant, a side with a best price has a best order: a
limit order at exactly that price. -/
theorem bestOfLevels_of_headPrice (ls : List PriceLevel) (s : OrderSide)
    (hWF : sideWF s ls) (p : ℚ) (hp : headPrice ls = some p) :
    ∃ b, bestOfLevels ls = some b ∧ b.price = some p ∧ b.side = s := by
  cases ls with
  | nil => cases hp
  | cons l rest =>
    unfold headPrice at hp
    rw [List.map_cons, List.head?_cons] at hp
    injection hp with hp
    obtain ⟨hne, hall⟩ := hWF l (List.mem_cons_self _ _)
    cases hords : l.orders with
    | nil => exact absurd hords hne
    | cons b os =>
      obtain ⟨hbp, hbs, _⟩ := hall b (by rw [hords]; exact List.mem_cons_self _ _)
      refine ⟨b, ?_, by rw [hbp, hp], hbs⟩
      simp only [bestOfLevels]
      rw [hords]
      rfl

/-- Conversely, a side's best order is a limit order priced at the side's
best price. -/
theorem headPrice_of_bestOfLevels (ls : List PriceLevel) (s : OrderSide)
    (hWF : sideWF s ls) (b : Order) (hb : bestOfLevels ls = some b) :
    ∃ p, headPrice ls = some p ∧ b.price = some p := by
  cases ls with
  | nil => cases hb
  | cons l rest =>
    simp only [bestOfLevels] at hb
    obtain ⟨hne, hall⟩ := hWF l (List.mem_cons_self _ _)
    have hmem : b ∈ l.orders := List.mem_of_mem_head? hb
    obtain ⟨hbp, _, _⟩ := hall b hmem
    exact ⟨l.price, rfl, hbp⟩

/-- Loop exit condition: with fuel exceeding the number of opposing
resting orders (as Match supplies), a loop that stops with quantity still
remaining stops because the crossing test fails on the final book's best
opposing order, if any. -/
theorem matchLoop_exit (fuel : Nat) : ∀ (inc : Order) (bk : OrderBook), bk.WF →
    countOrders (oppLevels bk inc.side) + 1 ≤ fuel →
    (matchLoop fuel inc bk).working.remainingQuantity ≠ 0 →
    ∀ b, bestOpp (matchLoop fuel inc bk).book inc.side = some b →
      canMatch inc b = false := by
  induction fuel with
  | zero =>
    intro inc bk _ hfuel
    exact absurd hfuel (Nat.not_succ_le_zero _)
  | succ n ih =>
    intro inc bk hWF hfuel
    unfold matchLoop
    by_cases hrem : inc.remainingQuantity = 0
    · rw [if_pos hrem]
      dsimp only
      intro hne
      exact absurd hrem hne
    · rw [if_neg hrem]
      cases heq : bestOpp bk inc.side with
      | none =>
        simp only [heq]
        intro _ b hb
        cases hb
      | some best =>
        simp only [heq]
        by_cases hcm : canMatch inc best = true
        · rw [if_pos hcm]
          dsimp only
          by_cases h0 : best.remainingQuantity - (executeTrade inc best).quantity = 0
          · simp only [if_pos h0]
            have hpop := bestOpp_removal_pop bk inc.side best hWF heq
            have hcount : countOrders
                (oppLevels ((bk.removeOrder best.id best.side best.price).1) inc.side)
                  + 1 ≤ n := by
              rw [countOrders_eq_length] at hfuel ⊢
              rw [hpop] at hfuel
              simp only [List.length_cons] at hfuel
              omega
            intro hne b hb
            exact ih { inc with remainingQuantity :=
                inc.remainingQuantity - (executeTrade inc best).quantity }
              ((bk.removeOrder best.id best.side best.price).1)
              (removeOrder_WF bk best.id best.side best.price hWF) hcount hne b hb
          · simp only [if_neg h0]
            have hz : ({ inc with remainingQuantity :=
                inc.remainingQuantity - (executeTrade inc best).quantity } :
                  Order).remainingQuantity = 0 := by
              dsimp only
              rw [trade_qty_of_bestRem_ne inc best h0, sub_self]
            rw [matchLoop_zero_rem n _ _ hz]
            dsimp only
            intro hne
            exact absurd hz hne
        · rw [if_neg hcm]
          dsimp only
          intro _ b hb
          rw [heq] at hb
          injection hb with hb
          subst hb
          exact Bool.eq_false_iff.mpr hcm

/-- Inserting an order adds at most the price p to a side's price list. -/
theorem insertIntoLevels_priceMem (before : ℚ → ℚ → Bool) :
    ∀ (ls : List PriceLevel) (p : ℚ) (o : Order) (q : ℚ),
      q ∈ (insertIntoLevels before ls p o).map PriceLevel.price →
        q = p ∨ q ∈ ls.map PriceLevel.price := by
  intro ls
  induction ls with
  | nil =>
    intro p o q hq
    simp [insertIntoLevels] at hq
    exact Or.inl hq
  | cons l rest ih =>
    intro p o q hq
    simp only [insertIntoLevels] at hq
    by_cases hp : l.price = p
    · rw [if_pos hp] at hq
      rw [List.map_cons] at hq
      rcases List.mem_cons.mp hq with h | h
      · exact Or.inr (by rw [List.map_cons, h]; exact List.mem_cons_self _ _)
      · exact Or.inr (by rw [List.map_cons]; exact List.mem_cons_of_mem _ h)
    · rw [if_neg hp] at hq
      by_cases hbf : before p l.price = true
      · rw [if_pos hbf] at hq
        rw [List.map_cons, List.map_cons] at hq
        rcases List.mem_cons.mp hq with h | h
        · exact Or.inl h
        · exact Or.inr h
      · rw [if_neg hbf] at hq
        rw [List.map_cons] at hq
        rcases List.mem_cons.mp hq with h | h
        · exact Or.inr (by rw [List.map_cons, h]; exact List.mem_cons_self _ _)
        · rcases ih p o q h with h2 | h2
          · exact Or.inl h2
          · exact Or.inr (by rw [List.map_cons]; exact List.mem_cons_of_mem _ h2)

/-- Inserting an order keeps a side's price list sorted, for any strict
linear sort order computed by the comparison the source side uses. -/
theorem insertIntoLevels_pairwise (lt : ℚ → ℚ → Prop) (before : ℚ → ℚ → Bool)
    (hb : ∀ a c, before a c = true ↔ lt a c)
    (htot : ∀ a c, a ≠ c → lt a c ∨ lt c a)
    (htrans : ∀ a c d, lt a c → lt c d → lt a d) :
    ∀ (ls : List PriceLevel) (p : ℚ) (o : Order),
      (ls.map PriceLevel.price).Pairwise lt →
        ((insertIntoLevels before ls p o).map PriceLevel.price).Pairwise lt := by
  intro ls
  induction ls with
  | nil =>
    intro p o _
    simp [insertIntoLevels]
  | cons l rest ih =>
    intro p o hpw
    rw [List.map_cons, List.pairwise_cons] at hpw
    obtain ⟨hhead, htail⟩ := hpw
    simp only [insertIntoLevels]
    by_cases hp : l.price = p
    · rw [if_pos hp]
      rw [List.map_cons, List.pairwise_cons]
      exact ⟨hhead, htail⟩
    · rw [if_neg hp]
      by_cases hbf : before p l.price = true
      · rw [if_pos hbf]
        rw [List.map_cons, List.map_cons, List.pairwise_cons, List.pairwise_cons]
        refine ⟨?_, hhead, htail⟩
        intro q hq
        rcases List.mem_cons.mp hq with rfl | hq2
        · exact (hb p l.price).mp hbf
        · exact htrans p l.price q ((hb p l.price).mp hbf) (hhead q hq2)
      · rw [if_neg hbf]
        rw [List.map_cons, List.pairwise_cons]
        refine ⟨?_, ih p o htail⟩
        intro q hq
        rcases insertIntoLevels_priceMem before rest p o q hq with rfl | hq2
        · rcases htot l.price q (fun h => hp h) with h | h
          · exact h
          · exact absurd ((hb q l.price).mpr h) hbf
        · exact hhead q hq2

/-- Inserting a limit order of the side's own side and price keeps the
side invariant. -/
theorem insertIntoLevels_sideWF (before : ℚ → ℚ → Bool) (s : OrderSide) :
    ∀ (ls : List PriceLevel) (p : ℚ) (o : Order),
      sideWF s ls → o.price = some p → o.side = s → o.type = OrderType.limit →
        sideWF s (insertIntoLevels before ls p o) := by
  intro ls
  induction ls with
  | nil =>
    intro p o _ hop hos hot
    intro l hl
    simp [insertIntoLevels] at hl
    subst hl
    refine ⟨by simp, ?_⟩
    intro x hx
    simp at hx
    subst hx
    exact ⟨hop, hos, hot⟩
  | cons l rest ih =>
    intro p o hWF hop hos hot
    simp only [insertIntoLevels]
    by_cases hp : l.price = p
    · rw [if_pos hp]
      intro l2 hl2
      rcases List.mem_cons.mp hl2 with rfl | hl3
      · obtain ⟨hne, hall⟩ := hWF l (List.mem_cons_self _ _)
        refine ⟨by simp, ?_⟩
        intro x hx
        rcases List.mem_append.mp hx with hx2 | hx2
        · exact hall x hx2
        · rw [List.mem_singleton] at hx2
          subst hx2
          exact ⟨by rw [hop, hp], hos, hot⟩
      · exact hWF l2 (List.mem_cons_of_mem _ hl3)
    · rw [if_neg hp]
      by_cases hbf : before p l.price = true
      · rw [if_pos hbf]
        intro l2 hl2
        rcases List.mem_cons.mp hl2 with rfl | hl3
        · refine ⟨by simp, ?_⟩
          intro x hx
          rw [List.mem_singleton] at hx
          subst hx
          exact ⟨hop, hos, hot⟩
        · exact hWF l2 hl3
      · rw [if_neg hbf]
        intro l2 hl2
        rcases List.mem_cons.mp hl2 with rfl | hl3
        · exact hWF l2 (List.mem_cons_self _ _)
        · have hWF2 : sideWF s rest := fun l3 hl3 => hWF l3 (List.mem_cons_of_mem _ hl3)
          exact ih p o hWF2 hop hos hot l2 hl3

/-- The best price after an insert is the inserted price or the side's
previous best price. -/
theorem insertIntoLevels_headPrice (before : ℚ → ℚ → Bool) (ls : List PriceLevel)
    (p : ℚ) (o : Order) :
    headPrice (insertIntoLevels before ls p o) = some p ∨
      headPrice (insertIntoLevels before ls p o) = headPrice ls := by
  cases ls with
  | nil => exact Or.inl rfl
  | cons l rest =>
    simp only [insertIntoLevels]
    by_cases hp : l.price = p
    · rw [if_pos hp]
      exact Or.inr rfl
    · rw [if_neg hp]
      by_cases hbf : before p l.price = true
      · rw [if_pos hbf]
        exact Or.inl rfl
      · rw [if_neg hbf]
        exact Or.inr rfl

/-- A leftover returned by Matcher.Match is the incoming limit order with
quantity still remaining: price, side and (limit) type are the incoming
order's own. -/
theorem Match_leftover (inc : Order) (bk : OrderBook) (lo : Order)
    (h : (Matcher.Match inc bk).1.incomingOrderLeft = some lo) :
    lo.price = inc.price ∧ lo.side = inc.side ∧ lo.type = OrderType.limit ∧
      inc.type = OrderType.limit ∧
      (matchLoop (countOrders (oppLevels bk inc.side) + 1) inc bk).working.remainingQuantity
        ≠ 0 := by
  have hw := matchLoop_working (countOrders (oppLevels bk inc.side) + 1) inc bk
  simp only [Matcher.Match] at h
  split at h
  · split at h
    · rename_i hrem htype
      dsimp only at h
      injection h with h
      subst h
      refine ⟨?_, ?_, ?_, ?_, hrem⟩
      · split
        · rw [hw]
        · rw [hw]
      · split
        · rw [hw]
        · rw [hw]
      · split
        · exact htype
        · exact htype
      · rw [hw] at htype
        exact htype
    · dsimp only at h
      cases h
  · dsimp only at h
    cases h

/-- Adding a limit order that does not cross the side it faces keeps the
book well-formed and uncrossed. -/
theorem addOrder_inv (bk : OrderBook) (o : Order) (hWF : bk.WF) (hnc : bk.notCrossed)
    (htype : o.type = OrderType.limit)
    (hcross : ∀ pOpp, headPrice (oppLevels bk o.side) = some pOpp →
      ∀ p, o.price = some p →
        (if o.side = OrderSide.buy then p < pOpp else pOpp < p)) :
    (bk.addOrder o).WF ∧ (bk.addOrder o).notCrossed := by
  cases hop : o.price with
  | none =>
    have hbk : bk.addOrder o = bk := by
      simp only [OrderBook.addOrder, hop]
    rw [hbk]
    exact ⟨hWF, hnc⟩
  | some p =>
    obtain ⟨hsb, hsa, hwb, hwa⟩ := hWF
    by_cases hs : o.side = OrderSide.buy
    · have hbk : bk.addOrder o =
          { bk with bids := insertIntoLevels (fun a b => decide (b < a)) bk.bids p o } := by
        simp only [OrderBook.addOrder, hop]
        rw [if_pos hs]
      rw [hbk]
      refine ⟨⟨?_, hsa, ?_, hwa⟩, ?_⟩
      · exact insertIntoLevels_pairwise (fun a b => b < a) (fun a b => decide (b < a))
          (fun a c => by simp) (fun a c hne => (lt_or_gt_of_ne hne).symm)
          (fun a c d h1 h2 => lt_trans h2 h1) bk.bids p o hsb
      · exact insertIntoLevels_sideWF _ OrderSide.buy bk.bids p o hwb hop hs htype
      · intro pb pa hpb hpa
        dsimp only at hpb hpa
        rcases insertIntoLevels_headPrice (fun a b => decide (b < a)) bk.bids p o with hh | hh
        · rw [hh] at hpb
          injection hpb with hpb
          subst hpb
          have hres := hcross pa (by rw [hs, oppLevels_buy]; exact hpa) p hop
          rw [if_pos hs] at hres
          exact hres
        · rw [hh] at hpb
          exact hnc pb pa hpb hpa
    · have hbk : bk.addOrder o =
          { bk with asks := insertIntoLevels (fun a b => decide (a < b)) bk.asks p o } := by
        simp only [OrderBook.addOrder, hop]
        rw [if_neg hs]
      rw [hbk]
      have hsell : o.side = OrderSide.sell := by
        cases hside : o.side
        · exact absurd hside hs
        · rfl
      refine ⟨⟨hsb, ?_, hwb, ?_⟩, ?_⟩
      · exact insertIntoLevels_pairwise (fun a b => a < b) (fun a b => decide (a < b))
          (fun a c => by simp) (fun a c hne => lt_or_gt_of_ne hne)
          (fun a c d h1 h2 => lt_trans h1 h2) bk.asks p o hsa
      · exact insertIntoLevels_sideWF _ OrderSide.sell bk.asks p o hwa hop hsell htype
      · intro pb pa hpb hpa
        dsimp only at hpb hpa
        rcases insertIntoLevels_headPrice (fun a b => decide (a < b)) bk.asks p o with hh | hh
        · rw [hh] at hpa
          injection hpa with hpa
          subst hpa
          have hres := hcross pb (by rw [hsell, oppLevels_sell]; exact hpb) p hop
          rw [if_neg hs] at hres
          exact hres
        · rw [hh] at hpa
          exact hnc pb pa hpb hpa

/-- Adding the leftover of a Match to the matched book keeps it
well-formed and uncrossed: the loop stopped precisely because the leftover
does not cross the remaining best opposing order. -/
theorem Match_addLeftover_inv (inc : Order) (bk : OrderBook) (lo : Order)
    (hWF : bk.WF) (hnc : bk.notCrossed)
    (hlo : (Matcher.Match inc bk).1.incomingOrderLeft = some lo) :
    ((Matcher.Match inc bk).2.addOrder lo).WF ∧
      ((Matcher.Match inc bk).2.addOrder lo).notCrossed := by
  obtain ⟨hprice, hside, htypeL, htypeInc, hrem⟩ := Match_leftover inc bk lo hlo
  have hbook := Match_book inc bk
  have hWF2 : (Matcher.Match inc bk).2.WF := by
    rw [hbook]
    exact matchLoop_WF _ inc bk hWF
  have hnc2 : (Matcher.Match inc bk).2.notCrossed := by
    rw [hbook]
    exact matchLoop_notCrossed _ inc bk hWF hnc
  apply addOrder_inv _ lo hWF2 hnc2 htypeL
  intro pOpp hpOpp p hp
  have hpinc : inc.price = some p := by
    rw [← hprice]
    exact hp
  rw [hside, hbook] at hpOpp
  have hmt : inc.type ≠ OrderType.market := by
    rw [htypeInc]
    exact fun hcon => OrderType.noConfusion hcon
  by_cases hs : inc.side = OrderSide.buy
  · rw [hs, oppLevels_buy] at hpOpp
    obtain ⟨b, hbB, hbp, hbs⟩ := bestOfLevels_of_headPrice _ OrderSide.sell
      (matchLoop_WF _ inc bk hWF).2.2.2 pOpp hpOpp
    have hbo : bestOpp
        (matchLoop (countOrders (oppLevels bk inc.side) + 1) inc bk).book inc.side
          = some b := by
      rw [hs, bestOpp_buy]
      exact hbB
    have hcm := matchLoop_exit _ inc bk hWF (le_refl _) hrem b hbo
    unfold canMatch at hcm
    rw [if_neg hmt] at hcm
    simp only [hpinc, hbp] at hcm
    rw [if_pos hs] at hcm
    rw [hside, if_pos hs]
    exact not_le.mp (by simpa using hcm)
  · have hsell : inc.side = OrderSide.sell := by
      cases hside2 : inc.side
      · exact absurd hside2 hs
      · rfl
    rw [hsell, oppLevels_sell] at hpOpp
    obtain ⟨b, hbB, hbp, hbs⟩ := bestOfLevels_of_headPrice _ OrderSide.buy
      (matchLoop_WF _ inc bk hWF).2.2.1 pOpp hpOpp
    have hbo : bestOpp
        (matchLoop (countOrders (oppLevels bk inc.side) + 1) inc bk).book inc.side
          = some b := by
      rw [hsell, bestOpp_sell]
      exact hbB
    have hcm := matchLoop_exit _ inc bk hWF (le_refl _) hrem b hbo
    unfold canMatch at hcm
    rw [if_neg hmt] at hcm
    simp only [hpinc, hbp] at hcm
    rw [if_neg hs] at hcm
    rw [hside, if_neg hs]
    exact not_le.mp (by simpa using hcm)

/-- PlaceOrder keeps the book well-formed and uncrossed, whatever the
injected store behavior: every branch leaves the original book, the
matched book, or the matched book with the non-crossing leftover added. -/
theorem placeOrder_inv (fs : StoreFail) (es : EngineState) (req : CreateOrderRequest)
    (hWF : es.book.WF) (hnc : es.book.notCrossed) :
    ((placeOrder fs es req).1.book).WF ∧ ((placeOrder fs es req).1.book).notCrossed := by
  unfold placeOrder
  dsimp only
  split
  · exact ⟨hWF, hnc⟩
  · split
    · constructor
      · rw [Match_book]
        exact matchLoop_WF _ _ _ hWF
      · rw [Match_book]
        exact matchLoop_notCrossed _ _ _ hWF hnc
    · split
      · constructor
        · rw [Match_book]
          exact matchLoop_WF _ _ _ hWF
        · rw [Match_book]
          exact matchLoop_notCrossed _ _ _ hWF hnc
      · split
        · split
          · rename_i lo hleft
            dsimp only
            exact Match_addLeftover_inv _ es.book lo hWF hnc hleft
          · dsimp only
            constructor
            · rw [Match_book]
              exact matchLoop_WF _ _ _ hWF
            · rw [Match_book]
              exact matchLoop_notCrossed _ _ _ hWF hnc
        · split
          · rename_i lo hleft
            dsimp only
            exact Match_addLeftover_inv _ es.book lo hWF hnc hleft
          · dsimp only
            constructor
            · rw [Match_book]
              exact matchLoop_WF _ _ _ hWF
            · rw [Match_book]
              exact matchLoop_notCrossed _ _ _ hWF hnc

/-- CancelOrder keeps the book well-formed and uncrossed: it either leaves
the book alone or removes one order. -/
theorem cancelOrder_inv (es : EngineState) (oid : Int)
    (hWF : es.book.WF) (hnc : es.book.notCrossed) :
    ((cancelOrder es oid).1.book).WF ∧ ((cancelOrder es oid).1.book).notCrossed := by
  unfold cancelOrder
  split
  · exact ⟨hWF, hnc⟩
  · split
    · exact ⟨hWF, hnc⟩
    · split
      · exact ⟨hWF, hnc⟩
      · split
        · exact ⟨hWF, hnc⟩
        · split
          · exact ⟨hWF, hnc⟩
          · split
            · exact ⟨hWF, hnc⟩
            · split
              · exact ⟨hWF, hnc⟩
              · dsimp only
                split
                · constructor
                  · exact removeOrder_WF _ _ _ _ hWF
                  · exact notCrossed_of_priceMap_sublists _ es.book hWF.1 hWF.2.1 hnc
                      (removeOrder_priceMaps _ _ _ _).1 (removeOrder_priceMaps _ _ _ _).2
                · exact ⟨hWF, hnc⟩

/-- Every engine operation keeps the book well-formed and uncrossed. -/
theorem engineStep_inv (es : EngineState) (op : EngineOp)
    (hWF : es.book.WF) (hnc : es.book.notCrossed) :
    ((engineStep es op).book).WF ∧ ((engineStep es op).book).notCrossed := by
  cases op with
  | placeOp fs req => exact placeOrder_inv fs es req hWF hnc
  | cancelOp oid => exact cancelOrder_inv es oid hWF hnc

/-- Any run of the engine from the empty start state yields a well-formed,
uncrossed book. -/
theorem runEngine_inv (ops : List EngineOp) :
    ((runEngine ops).book).WF ∧ ((runEngine ops).book).notCrossed := by
  have hgen : ∀ (l : List EngineOp) (es : EngineState),
      es.book.WF → es.book.notCrossed →
        ((l.foldl engineStep es).book).WF ∧ ((l.foldl engineStep es).book).notCrossed := by
    intro l
    induction l with
    | nil =>
      intro es hWF hnc
      exact ⟨hWF, hnc⟩
    | cons op rest ih =>
      intro es hWF hnc
      rw [List.foldl_cons]
      obtain ⟨h1, h2⟩ := engineStep_inv es op hWF hnc
      exact ih (engineStep es op) h1 h2
  refine hgen ops initialEngineState ?_ ?_
  · refine ⟨?_, ?_, ?_, ?_⟩ <;> simp [initialEngineState, sideSorted, sideWF]
  · intro pb pa hpb hpa
    cases hpb

/-- C5: after any sequence of PlaceOrder and CancelOrder operations from
the empty start state, whenever the book has both a best bid and a best
ask, the best bid's price is strictly below the best ask's price: the book
is never crossed. -/
theorem c5_never_crossed (ops : List EngineOp) (b a : Order) (pb pa : ℚ)
    (hb : (runEngine ops).book.getBestBid = some b)
    (ha : (runEngine ops).book.getBestAsk = some a)
    (hpb : b.price = some pb) (hpa : a.price = some pa) : pb < pa := by
  obtain ⟨hWF, hnc⟩ := runEngine_inv ops
  obtain ⟨hsb, hsa, hwb, hwa⟩ := hWF
  obtain ⟨p1, hp1, hbp1⟩ :=
    headPrice_of_bestOfLevels (runEngine ops).book.bids OrderSide.buy hwb b hb
  obtain ⟨p2, hp2, hap2⟩ :=
    headPrice_of_bestOfLevels (runEngine ops).book.asks OrderSide.sell hwa a ha
  rw [hpb] at hbp1
  injection hbp1 with h1
  rw [hpa] at hap2
  injection hap2 with h2
  subst h1
  subst h2
  exact hnc pb pa hp1 hp2

/-- Applying C5 at a concrete input: after placing a bid at 90 and an ask
at 100 the two rest on the book, and the best bid price 90 is below the
best ask price 100. -/
theorem c5_witness : (90 : ℚ) < 100 :=
  c5_never_crossed c5ops
    (mkOrder 1 OrderSide.buy OrderType.limit (some 90) 1)
    (mkOrder 2 OrderSide.sell OrderType.limit (some 100) 1) 90 100
    (by decide)
    (by decide)
    (by norm_num [mkOrder])
    (by norm_num [mkOrder])
